import Mathlib

/-!
Verification development for the sunburnt indexer module
(`sunburnt/indexer.py`).  The Python source is shallowly embedded:

* Python dicts become association lists (`dupdate` mimics `dict.update`
  and item assignment, `dlookup` mimics `dict.__getitem__`/`get`);
* Python values flowing through `transform` become the inductive `Value`;
* `datetime.datetime.now()` becomes a clock function `Nat → Nat` read at
  an explicit tick counter that is threaded through the code and bumped
  once per `now()` call;
* calls on the excluded backend collaborator (`interface.add`,
  `interface.commit`, `interface.delete(queries=...)`) are recorded in a
  trace of `Call`s;
* exceptions become `Except PyErr`; the `except AttributeError` clause of
  `transform` catches exactly `PyErr.attributeError`.
-/

set_option autoImplicit false

namespace Sunburnt

universe u v

/-! ## Dictionary model (Python `dict` as association list) -/

/-- Lookup of a key in an association list, first match wins (keys built
with `dupdate` are unique, so this models Python dict lookup). -/
def dlookup {κ : Type u} {α : Type v} [DecidableEq κ] : List (κ × α) → κ → Option α
  | [], _ => Option.none
  | p :: rest, k => if p.1 = k then some p.2 else dlookup rest k

/-- Python `d[k] = v`: overwrite the value at an existing key in place,
otherwise append the new binding. -/
def dupdate {κ : Type u} {α : Type v} [DecidableEq κ] (d : List (κ × α)) (k : κ) (v : α) :
    List (κ × α) :=
  if d.any (fun p => decide (p.1 = k)) then d.map (fun p => if p.1 = k then (p.1, v) else p)
  else d ++ [(k, v)]

/-- Python `d.update(e)`: fold `dupdate` over the entries of `e`. -/
def dmerge {κ : Type u} {α : Type v} [DecidableEq κ] (d e : List (κ × α)) : List (κ × α) :=
  e.foldl (fun acc p => dupdate acc p.1 p.2) d

theorem dlookup_nil {κ : Type u} {α : Type v} [DecidableEq κ] (k : κ) :
    dlookup ([] : List (κ × α)) k = Option.none := rfl

theorem dlookup_cons {κ : Type u} {α : Type v} [DecidableEq κ] (p : κ × α)
    (rest : List (κ × α)) (k : κ) :
    dlookup (p :: rest) k = if p.1 = k then some p.2 else dlookup rest k := rfl

theorem dlookup_eq_none_of_not_mem {κ : Type u} {α : Type v} [DecidableEq κ]
    (d : List (κ × α)) (k : κ) (h : k ∉ d.map Prod.fst) :
    dlookup d k = Option.none := by
  induction d with
  | nil => rfl
  | cons p rest ih =>
    simp only [List.map_cons, List.mem_cons] at h
    push_neg at h
    have hne : ¬ p.1 = k := fun he => h.1 he.symm
    rw [dlookup_cons, if_neg hne, ih h.2]

/-- Membership in a `dupdate` result: either an untouched old entry with a
different key, or the freshly written binding. -/
theorem mem_dupdate {κ : Type u} {α : Type v} [DecidableEq κ]
    {d : List (κ × α)} {k : κ} {v : α} {q : κ × α} (h : q ∈ dupdate d k v) :
    (q ∈ d ∧ q.1 ≠ k) ∨ q = (k, v) := by
  unfold dupdate at h
  split at h
  · rcases List.mem_map.1 h with ⟨p, hp, hq⟩
    by_cases hk : p.1 = k
    · right
      rw [if_pos hk] at hq
      rw [← hq, hk]
    · left
      rw [if_neg hk] at hq
      exact ⟨hq ▸ hp, hq ▸ hk⟩
  · rcases List.mem_append.1 h with h' | h'
    · rename_i hany
      left
      refine ⟨h', fun hk => hany ?_⟩
      exact List.any_eq_true.2 ⟨q, h', by simp [hk]⟩
    · right
      simpa using h'

theorem dupdate_at_key {κ : Type u} {α : Type v} [DecidableEq κ]
    {d : List (κ × α)} {k : κ} {v : α} {q : κ × α} (h : q ∈ dupdate d k v)
    (hk : q.1 = k) : q.2 = v := by
  rcases mem_dupdate h with ⟨_, hne⟩ | he
  · exact absurd hk hne
  · rw [he]

/-- Overwriting values at a key leaves the key list unchanged. -/
theorem keys_map_write {κ : Type u} {α : Type v} [DecidableEq κ]
    (d : List (κ × α)) (k : κ) (v : α) :
    (d.map (fun p => if p.1 = k then (p.1, v) else p)).map Prod.fst = d.map Prod.fst := by
  induction d with
  | nil => rfl
  | cons p rest ih =>
    simp only [List.map_cons, ih]
    congr 1
    split <;> rfl

/-- Keys after `dupdate`: the written key joins the key list, nothing else
changes. -/
theorem mem_keys_dupdate {κ : Type u} {α : Type v} [DecidableEq κ]
    (d : List (κ × α)) (k : κ) (v : α) (j : κ) :
    j ∈ (dupdate d k v).map Prod.fst ↔ j ∈ d.map Prod.fst ∨ j = k := by
  unfold dupdate
  split
  · rename_i hany
    rcases List.any_eq_true.1 hany with ⟨p, hp, hpk⟩
    simp only [decide_eq_true_eq] at hpk
    rw [keys_map_write]
    constructor
    · exact Or.inl
    · rintro (hj | rfl)
      · exact hj
      · exact List.mem_map.2 ⟨p, hp, hpk⟩
  · simp only [List.map_append, List.mem_append, List.map_cons, List.map_nil,
      List.mem_singleton]

/-- Writing an absent key appends the binding. -/
theorem dupdate_of_not_mem {κ : Type u} {α : Type v} [DecidableEq κ]
    {d : List (κ × α)} {k : κ} (v : α) (h : k ∉ d.map Prod.fst) :
    dupdate d k v = d ++ [(k, v)] := by
  unfold dupdate
  rw [if_neg]
  intro hany
  rcases List.any_eq_true.1 hany with ⟨p, hp, hpk⟩
  simp only [decide_eq_true_eq] at hpk
  exact h (List.mem_map.2 ⟨p, hp, hpk⟩)

/-- Writing a present key rewrites values in place. -/
theorem dupdate_of_mem {κ : Type u} {α : Type v} [DecidableEq κ]
    {d : List (κ × α)} {k : κ} (v : α) (h : k ∈ d.map Prod.fst) :
    dupdate d k v = d.map (fun p => if p.1 = k then (p.1, v) else p) := by
  unfold dupdate
  rw [if_pos]
  rcases List.mem_map.1 h with ⟨p, hp, hpk⟩
  exact List.any_eq_true.2 ⟨p, hp, by simp [hpk]⟩

theorem dlookup_map_write_ne {κ : Type u} {α : Type v} [DecidableEq κ]
    (d : List (κ × α)) (k : κ) (v : α) (j : κ) (hjk : j ≠ k) :
    dlookup (d.map fun p => if p.1 = k then (p.1, v) else p) j = dlookup d j := by
  induction d with
  | nil => rfl
  | cons p rest ih =>
    by_cases hpk : p.1 = k
    · have hkj : ¬ k = j := fun h => hjk h.symm
      simp [dlookup_cons, hpk, if_neg hkj, ih]
    · by_cases hpj : p.1 = j
      · simp [dlookup_cons, if_neg hpk, if_pos hpj]
      · simp [dlookup_cons, if_neg hpk, if_neg hpj, ih]

theorem dlookup_append_single_ne {κ : Type u} {α : Type v} [DecidableEq κ]
    (d : List (κ × α)) (k : κ) (v : α) (j : κ) (hjk : j ≠ k) :
    dlookup (d ++ [(k, v)]) j = dlookup d j := by
  induction d with
  | nil =>
    rw [List.nil_append, dlookup_cons, if_neg (fun h : k = j => hjk h.symm)]
  | cons p rest ih =>
    simp only [List.cons_append, dlookup_cons, ih]

/-- Lookup at a different key is unchanged by `dupdate`. -/
theorem dlookup_dupdate_other {κ : Type u} {α : Type v} [DecidableEq κ]
    (d : List (κ × α)) (k : κ) (v : α) (j : κ) (hjk : j ≠ k) :
    dlookup (dupdate d k v) j = dlookup d j := by
  unfold dupdate
  split
  · exact dlookup_map_write_ne d k v j hjk
  · exact dlookup_append_single_ne d k v j hjk

/-- Lookup at the written key returns the new value. -/
theorem dlookup_dupdate_self {κ : Type u} {α : Type v} [DecidableEq κ]
    (d : List (κ × α)) (k : κ) (v : α) :
    dlookup (dupdate d k v) k = some v := by
  by_cases hmem : k ∈ d.map Prod.fst
  · rw [dupdate_of_mem v hmem]
    induction d with
    | nil => simp at hmem
    | cons p rest ih =>
      simp only [List.map_cons, List.mem_cons] at hmem
      by_cases hpk : p.1 = k
      · simp [dlookup_cons, hpk]
      · rcases hmem with hmem | hmem
        · exact absurd hmem.symm hpk
        · simpa [dlookup_cons, if_neg hpk] using ih hmem
  · rw [dupdate_of_not_mem v hmem]
    induction d with
    | nil =>
      rw [List.nil_append, dlookup_cons, if_pos rfl]
    | cons p rest ih =>
      simp only [List.map_cons, List.mem_cons] at hmem
      push_neg at hmem
      rw [List.cons_append, dlookup_cons, if_neg (fun h : p.1 = k => hmem.1 h.symm)]
      exact ih hmem.2

/-! ## Python values, errors, field declarations -/

/-- Python exception kinds relevant to `transform`: the `except
AttributeError` clause of `BaseIndexer.transform` catches exactly
`attributeError`; `self._meta['type']` on a missing key raises
`keyError`, which is never caught. -/
inductive PyErr where
  | attributeError
  | keyError
deriving DecidableEq

/-- Python values that flow through `transform` and into documents. An
`obj` is an object with named attributes; `timestamp` models a
`datetime.datetime` (as discrete time `Nat`); `pylist` a collection. -/
inductive Value where
  | none
  | int (n : Int)
  | str (s : String)
  | timestamp (t : Nat)
  | obj (attrs : List (String × Value))
  | pylist (elems : List Value)

/-- Python truthiness (`if value:` in `transform`): `None`, `0`, `""` and
empty collections are falsy; objects and datetimes are truthy. -/
def truthy : Value → Bool
  | Value.none => false
  | Value.int n => if n = 0 then false else true
  | Value.str s => if s = "" then false else true
  | Value.timestamp _ => true
  | Value.obj _ => true
  | Value.pylist vs => if vs.isEmpty then false else true

/-- Is this value Python's `None`? (the `if value is None` check in the
attribute-path walk). -/
def Value.isNone : Value → Bool
  | Value.none => true
  | _ => false

/-- Embeds `sunburnt.indexer.Field`: an optional dotted attribute path
(stored pre-split on `'.'`, as `field.attribute.split('.')` produces it)
and the `optional` flag. The `solr_field` slot set in `__init__` is
looked up from the schema collaborator at use sites. -/
structure PyField where
  attrPath : Option (List String)
  optional : Bool
deriving DecidableEq

/-- A Python document: dict from field name to value. -/
abbrev Doc := List (String × Value)

/-! ## IndexerMetaclass -/

/-- A class-body attribute that `IndexerMetaclass.__new__` cares about: a
`Field` declaration or the inner `Meta` class (its `__dict__` without
dunder entries).  Other attributes are passed through untouched and do
not affect `base_fields` or `_meta`. -/
inductive ClassAttr where
  | fieldDecl (name : String) (f : PyField)
  | metaBlock (entries : List (String × String))
deriving DecidableEq

/-- The observable configuration of an indexer class: its `base_fields`
dict and its `_meta` dict. -/
structure PyClass where
  base_fields : List (String × PyField)
  meta : List (String × String)
deriving DecidableEq

/-- Embeds the attribute-processing loop of `IndexerMetaclass.__new__`
(indexer.py lines 34–43).  `bf` and `m` start as the PARENT class's
dicts: `getattr(new_class, 'base_fields', {})` returns the parent's dict
object, and `base_fields.update(...)` / `meta.update(...)` mutate it in
place.  On a `Meta` block the merged metadata must contain `'type'`,
otherwise the configuration exception is raised (modelled as
`Except.error ()`).  Python 2 iterates the class `attrs` dict in
arbitrary order; the list order stands in for one such order. -/
def metaLoop : List ClassAttr → List (String × PyField) → List (String × String) →
    Except Unit (List (String × PyField) × List (String × String))
  | [], bf, m => .ok (bf, m)
  | ClassAttr.fieldDecl n f :: rest, bf, m => metaLoop rest (dupdate bf n f) m
  | ClassAttr.metaBlock mb :: rest, bf, m =>
    let m' := dmerge m mb
    if (dlookup m' "type").isSome then metaLoop rest bf m' else .error ()

/-- Embeds `IndexerMetaclass.__new__` (lines 22–56) for a class that has
an `IndexerMetaclass` parent (the early-return for the root base class
at lines 29–32 is outside this path).  Takes the parent class and the
new class body; returns `(newClass, parentAfterDefinition)`.  The loop
mutates the parent's dicts in place, the new class then stores
`dict(base_fields)` (a copy with the same contents, line 52) and `meta`
(the very same dict object, line 53), so both returned classes carry the
final contents of the shared dicts.  The `meta is None` check at line 45
can never fire (`base_meta` defaults to `{}`). -/
def indexerMetaclassNew (parent : PyClass) (attrs : List ClassAttr) :
    Except Unit (PyClass × PyClass) :=
  match metaLoop attrs parent.base_fields parent.meta with
  | .error e => .error e
  | .ok (bf, m) => .ok (⟨bf, m⟩, ⟨bf, m⟩)

/-- Does a class body declare an inner `Meta` class? -/
def hasMetaBlock : List ClassAttr → Bool
  | [] => false
  | ClassAttr.metaBlock _ :: _ => true
  | _ :: rest => hasMetaBlock rest

/-! ## BaseIndexer: construction and transform -/

/-- Backend schema information for one field name, as bound in
`__init__` via `interface.schema.match_field`: the `dynamic` flag and
the value of `solr_field.display_name(field_name)`.  The schema registry
is an excluded collaborator and enters as a parameter. -/
structure SchemaField where
  dynamic : Bool
  displayName : String
deriving DecidableEq

/-- The excluded collaborators consulted by `transform`:
`lookupAttr` models `schema.get_attribute_or_callable` (attribute or
zero-argument-callable lookup on a value; `Option.none` models the
`AttributeError` it raises for a missing attribute); `hooks` models
`transform_*` methods added by user subclasses (an absent name falls
back to the built-ins defined on `BaseIndexer`); `schema` models the
bound `solr_field` data. -/
structure TEnv where
  lookupAttr : Value → String → Option Value
  hooks : String → Option (Value → Except PyErr Value)
  schema : String → SchemaField

/-- The state of a `BaseIndexer` instance after `__init__`: the class
`_meta` dict, the merged `self.fields` dict, and `self.index_timestamp`
captured at construction. -/
structure IdxInst where
  meta : List (String × String)
  fields : List (String × PyField)
  index_timestamp : Nat

/-- Embeds `BaseIndexer.__init__` (lines 60–73): capture
`index_timestamp = datetime.datetime.now()` (reading the clock at the
current tick and consuming it) and build `self.fields` as a deep copy of
`base_fields` updated with the two system fields.  Schema binding and
`check_fields` validation belong to the excluded schema collaborator. -/
def initIndexer (base_fields : List (String × PyField)) (meta : List (String × String))
    (clock : Nat → Nat) (k : Nat) : IdxInst × Nat :=
  (⟨meta,
    dmerge base_fields
      [("meta_type_s", ⟨Option.none, false⟩), ("meta_index_timestamp_dt", ⟨Option.none, false⟩)],
    clock k⟩, k + 1)

/-- Embeds the attribute-path walk of `transform` (lines 92–102): step
through the dotted path; a `None` intermediate value raises
`AttributeError` (the explicit `raise` at lines 94–100), and so does a
failed attribute-or-callable lookup in the collaborator. -/
def resolvePath (lookupAttr : Value → String → Option Value) :
    Value → List String → Except PyErr Value
  | v, [] => .ok v
  | v, name :: rest =>
    if v.isNone then .error PyErr.attributeError
    else match lookupAttr v name with
      | some w => resolvePath lookupAttr w rest
      | Option.none => .error PyErr.attributeError

/-- Embeds `getattr(self, 'transform_%s' % name)(record)` (lines 83–90):
a subclass hook shadows the built-ins `transform_meta_type`
(lines 113–114: reads `self._meta['type']`, so a missing key raises
`KeyError`) and `transform_meta_index_timestamp` (lines 116–117: reads
`datetime.datetime.now()`, consuming one clock tick); an unknown hook
name makes `getattr` raise `AttributeError`. -/
def dispatchHook (I : IdxInst) (env : TEnv) (clock : Nat → Nat) (hname : String)
    (record : Value) (k : Nat) : Except PyErr Value × Nat :=
  match env.hooks hname with
  | some h => (h record, k)
  | Option.none =>
    if hname = "meta_type" then
      (match dlookup I.meta "type" with
       | some t => .ok (Value.str t)
       | Option.none => .error PyErr.keyError, k)
    else if hname = "meta_index_timestamp" then
      (.ok (Value.timestamp (clock k)), k + 1)
    else (.error PyErr.attributeError, k)

/-- Resolves one bound field (lines 80–102): attribute-path policy when
`field.attribute` is set; otherwise hook dispatch through the dynamic
display name (line 85) or the plain field name (line 89).  Returns the
outcome together with the advanced clock tick. -/
def resolveField (I : IdxInst) (env : TEnv) (clock : Nat → Nat) (record : Value)
    (fname : String) (f : PyField) (k : Nat) : Except PyErr Value × Nat :=
  match f.attrPath with
  | some path => (resolvePath env.lookupAttr record path, k)
  | Option.none =>
    let sf := env.schema fname
    dispatchHook I env clock (if sf.dynamic then sf.displayName else fname) record k

/-- The field loop of `transform` (lines 78–110): resolve each field,
catch `AttributeError` (re-raised unless the field is optional,
lines 103–105), and write truthy resolved values into the document
(lines 106–110). -/
def transformGo (I : IdxInst) (env : TEnv) (clock : Nat → Nat) (record : Value) :
    List (String × PyField) → Doc → Nat → Except PyErr (Doc × Nat)
  | [], doc, k => .ok (doc, k)
  | (fname, f) :: rest, doc, k =>
    match resolveField I env clock record fname f k with
    | (.ok v, k') =>
      transformGo I env clock record rest (if truthy v then dupdate doc fname v else doc) k'
    | (.error PyErr.attributeError, k') =>
      if f.optional then transformGo I env clock record rest doc k'
      else .error PyErr.attributeError
    | (.error PyErr.keyError, _) => .error PyErr.keyError

/-- Embeds `BaseIndexer.transform` (lines 75–111): run the field loop on
an initially empty document. -/
def transform (I : IdxInst) (env : TEnv) (clock : Nat → Nat) (record : Value) (k : Nat) :
    Except PyErr (Doc × Nat) :=
  transformGo I env clock record I.fields [] k

/-- The truthiness of a resolution outcome, with errors preserved. -/
def statusOf : Except PyErr Value → Except PyErr Bool
  | .ok v => .ok (truthy v)
  | .error e => .error e

/-- The tick-independent outcome of resolving a field: whether
resolution raises and which error, or whether the resolved value is
truthy.  (`resolveField` reads the clock only in the built-in timestamp
hook, whose result is a datetime and hence truthy at every tick, so
evaluating at tick 0 loses nothing; see `resolveField_status`.) -/
def resolveStatus (I : IdxInst) (env : TEnv) (clock : Nat → Nat) (record : Value)
    (fname : String) (f : PyField) : Except PyErr Bool :=
  statusOf (resolveField I env clock record fname f 0).1

/-- Boolean test: does this field resolve to a truthy value? -/
def statusTrue (I : IdxInst) (env : TEnv) (clock : Nat → Nat) (record : Value)
    (p : String × PyField) : Bool :=
  match resolveStatus I env clock record p.1 p.2 with
  | .ok true => true
  | _ => false

/-- The standing facts about an indexer instance and its environment that
the system-field claims rely on: the two system fields are bound exactly
as `__init__` installs them, the backend schema reports them as dynamic
fields whose display names select the built-in hooks, no subclass hook
shadows the built-ins, and the class metadata carries a non-empty type
tag. -/
def standardSys (I : IdxInst) (env : TEnv) (tag : String) : Prop :=
  ("meta_type_s", (⟨Option.none, false⟩ : PyField)) ∈ I.fields ∧
  ("meta_index_timestamp_dt", (⟨Option.none, false⟩ : PyField)) ∈ I.fields ∧
  env.schema "meta_type_s" = ⟨true, "meta_type"⟩ ∧
  env.schema "meta_index_timestamp_dt" = ⟨true, "meta_index_timestamp"⟩ ∧
  env.hooks "meta_type" = Option.none ∧
  env.hooks "meta_index_timestamp" = Option.none ∧
  dlookup I.meta "type" = some tag ∧ tag ≠ ""

/-! ## reindex: trace of backend calls -/

/-- `COMMIT_CHUNK_SIZE` from the module header (line 7). -/
def COMMIT_CHUNK_SIZE : Nat := 1000

/-- One call on the excluded backend collaborator recorded during
`reindex`. -/
inductive Call where
  | add (docs : List Doc)
  | commit
  | deleteQ (tag : String) (watermark : Nat)

/-- The record loop of `reindex` (lines 142–164): before transforming a
record whose running count is a multiple of `COMMIT_CHUNK_SIZE`
(including the very first record, when the pool is still empty), flush
the pool as one backend `add`; transform and pool the record; after the
source is exhausted flush any non-empty remainder, issue the single
`commit`, then the reconciliation delete keyed on `self._meta['type']`
and `self.index_timestamp`.  Returns the backend-call trace, the update
count and the final clock tick; a transform failure or a missing
`'type'` key propagates. -/
def reindexLoop (I : IdxInst) (env : TEnv) (clock : Nat → Nat) :
    List Value → Nat → List Doc → List Call → Nat → Except PyErr (List Call × Nat × Nat)
  | [], cnt, pool, tr, k =>
    let tr1 := if pool.length ≠ 0 then tr ++ [Call.add pool] else tr
    match dlookup I.meta "type" with
    | some tag => .ok (tr1 ++ [Call.commit, Call.deleteQ tag I.index_timestamp], cnt, k)
    | Option.none => .error PyErr.keyError
  | r :: rs, cnt, pool, tr, k =>
    let st := if cnt % COMMIT_CHUNK_SIZE = 0 then (tr ++ [Call.add pool], ([] : List Doc))
      else (tr, pool)
    match transform I env clock r k with
    | .error e => .error e
    | .ok (doc, k') => reindexLoop I env clock rs (cnt + 1) (st.2 ++ [doc]) st.1 k'

/-- Embeds `BaseIndexer.reindex` (lines 142–164). -/
def reindex (I : IdxInst) (env : TEnv) (clock : Nat → Nat) (records : List Value) (k : Nat) :
    Except PyErr (List Call × Nat × Nat) :=
  reindexLoop I env clock records 0 [] [] k

/-- The sizes of the `add` batches the reindex loop flushes, as a
function of the number of remaining records, the running count, and the
pool size (document contents are irrelevant to the chunking). -/
def specSizes : Nat → Nat → Nat → List Nat
  | 0, _, plen => if plen ≠ 0 then [plen] else []
  | n + 1, cnt, plen =>
    if cnt % COMMIT_CHUNK_SIZE = 0 then plen :: specSizes n (cnt + 1) 1
    else specSizes n (cnt + 1) (plen + 1)

def isAdd : Call → Bool
  | Call.add _ => true
  | _ => false

def isCommit : Call → Bool
  | Call.commit => true
  | _ => false

def isDelete : Call → Bool
  | Call.deleteQ _ _ => true
  | _ => false

/-- All documents carried by the `add` calls of a trace. -/
def addDocs : List Call → List Doc
  | [] => []
  | Call.add ds :: rest => ds ++ addDocs rest
  | _ :: rest => addDocs rest

/-! ## Backend document-store model -/

/-- Backend semantics of the reconciliation query
`Q(meta_type_s=tag) & Q(meta_index_timestamp_dt__lt=wm)` (spec §6): a
stored document matches exactly when its `meta_type_s` equals the tag
and its `meta_index_timestamp_dt` is strictly below the watermark. -/
def qMatches (tag : String) (wm : Nat) (d : Doc) : Bool :=
  (match dlookup d "meta_type_s" with
   | some (Value.str s) => if s = tag then true else false
   | _ => false) &&
  (match dlookup d "meta_index_timestamp_dt" with
   | some (Value.timestamp t) => if t < wm then true else false
   | _ => false)

/-- Does a stored document carry the given type tag? -/
def hasTagB (tag : String) (d : Doc) : Bool :=
  match dlookup d "meta_type_s" with
  | some (Value.str s) => if s = tag then true else false
  | _ => false

/-- The backend document store, keyed by the schema's unique id (`idOf`
models the backend extracting the unique-key field of a document). -/
abbrev Store := List (Nat × Doc)

/-- Upsert a batch of documents by unique id: per the docstring of
`BaseIndexer.add` (lines 122–125), adding a document whose id exists
functions as an update. -/
def upsertAll (idOf : Doc → Nat) (ds : List Doc) (st : Store) : Store :=
  ds.foldl (fun s d => dupdate s (idOf d) d) st

/-- Backend state transition for one recorded call. -/
def applyCall (idOf : Doc → Nat) (st : Store) : Call → Store
  | Call.add ds => upsertAll idOf ds st
  | Call.commit => st
  | Call.deleteQ tag wm => st.filter (fun p => ! qMatches tag wm p.2)

/-- Backend state after a trace of calls. -/
def applyCalls (idOf : Doc → Nat) (st : Store) (calls : List Call) : Store :=
  calls.foldl (applyCall idOf) st

/-- Number of stored documents carrying the given type tag. -/
def countTag (tag : String) (st : Store) : Nat :=
  (st.filter (fun p => hasTagB tag p.2)).length

/-! ## Concrete instances used by witnesses and counterexamples -/

/-- Attribute lookup on concrete values: read a named attribute of an
`obj`; everything else has no attributes. -/
def objLookup : Value → String → Option Value
  | Value.obj attrs, name => dlookup attrs name
  | _, _ => Option.none

/-- A schema collaborator that reports the two system fields as dynamic
fields whose display names are the built-in hook names, and everything
else as a static field. -/
def sampleSchema : String → SchemaField := fun n =>
  if n = "meta_type_s" then ⟨true, "meta_type"⟩
  else if n = "meta_index_timestamp_dt" then ⟨true, "meta_index_timestamp"⟩
  else ⟨false, n⟩

/-- An environment with no subclass hooks. -/
def sampleEnv : TEnv := ⟨objLookup, fun _ => Option.none, sampleSchema⟩

/-- The identity clock: at tick `k` the current time is `k`. -/
def idClock : Nat → Nat := fun k => k

/-- An `article` indexer with no declared base fields, constructed at
tick 0 (so its `index_timestamp` is time 0). -/
def articleIndexer : IdxInst := (initIndexer [] [("type", "article")] idClock 0).1

/-- A featureless record. -/
def blankRecord : Value := Value.obj []

/-- A `book` indexer with a required attribute field `id_i ← id` and an
optional attribute field `title_t ← title`, constructed at tick 0. -/
def bookIndexer : IdxInst :=
  (initIndexer [("id_i", ⟨some ["id"], false⟩), ("title_t", ⟨some ["title"], true⟩)]
    [("type", "book")] idClock 0).1

/-- A record with an `id` attribute but no `title` attribute. -/
def bookRecord : Value := Value.obj [("id", Value.int 7)]

/-- The document `articleIndexer` produces for `blankRecord` at tick 1. -/
def articleDoc : Doc :=
  [("meta_type_s", Value.str "article"), ("meta_index_timestamp_dt", Value.timestamp 1)]

/-- The document `bookIndexer` produces for `bookRecord` at tick 1: the
optional `title_t` is omitted. -/
def bookDoc : Doc :=
  [("id_i", Value.int 7), ("meta_type_s", Value.str "book"),
    ("meta_index_timestamp_dt", Value.timestamp 1)]

/-- The document `articleIndexer` produces for `blankRecord` at tick 2. -/
def articleDoc2 : Doc :=
  [("meta_type_s", Value.str "article"), ("meta_index_timestamp_dt", Value.timestamp 2)]

/-- The trace of a one-record reindex run of `articleIndexer` started at
tick 2. -/
def lateRunTrace : List Call :=
  [Call.add [], Call.add [articleDoc2], Call.commit, Call.deleteQ "article" 0]

/-- A degenerate unique-id extractor: all documents share id 0. -/
def constId : Doc → Nat := fun _ => 0

/-- An `article` indexer constructed at tick 5, so its watermark is
time 5. -/
def lateIndexer : IdxInst := (initIndexer [] [("type", "article")] idClock 5).1

/-- A stale stored document: tagged `article`, stamped at time 0. -/
def oldArticleDoc : Doc :=
  [("meta_type_s", Value.str "article"), ("meta_index_timestamp_dt", Value.timestamp 0)]

/-- The trace of a one-record reindex run of `articleIndexer` started at
tick 1. -/
def firstRunTrace : List Call :=
  [Call.add [], Call.add [articleDoc], Call.commit, Call.deleteQ "article" 0]

/-! ## Metaclass lemmas and claims C8, C9 -/

/-- A class body with no `Meta` block only folds `dupdate`s over the
field dict and leaves the metadata untouched, raising nothing. -/
theorem metaLoop_no_meta_ok (attrs : List ClassAttr) (hnb : hasMetaBlock attrs = false) :
    ∀ bf m, ∃ bf', metaLoop attrs bf m = .ok (bf', m) := by
  induction attrs with
  | nil => exact fun bf m => ⟨bf, rfl⟩
  | cons a rest ih =>
    intro bf m
    cases a with
    | fieldDecl n f =>
      simp only [hasMetaBlock] at hnb
      rcases ih hnb (dupdate bf n f) m with ⟨bf', hbf'⟩
      exact ⟨bf', hbf'⟩
    | metaBlock mb => simp [hasMetaBlock] at hnb

/-- Processing a `Meta`-free chunk of the class body only rewrites the
field dict. -/
theorem metaLoop_no_meta_append (l1 : List ClassAttr) (hnb : hasMetaBlock l1 = false) :
    ∀ (rest : List ClassAttr) bf m, ∃ bf',
      metaLoop (l1 ++ rest) bf m = metaLoop rest bf' m := by
  induction l1 with
  | nil => exact fun rest bf m => ⟨bf, rfl⟩
  | cons a l1' ih =>
    intro rest bf m
    cases a with
    | fieldDecl n f =>
      simp only [hasMetaBlock] at hnb
      rcases ih hnb rest (dupdate bf n f) m with ⟨bf', hbf'⟩
      exact ⟨bf', hbf'⟩
    | metaBlock mb => simp [hasMetaBlock] at hnb

/-- C8 (code_bug evaluation): defining a subtype that declares a new
`Field` mutates the supertype's `base_fields` dict in place.  With
parent `A` owning only field `f1`, defining `B(A)` with field `f2`
leaves `A` with both fields — the supertype's field set does NOT remain
unchanged, contradicting the claimed immutability. -/
theorem c8_subtype_mutates_supertype :
    indexerMetaclassNew ⟨[("f1", ⟨some ["a"], false⟩)], [("type", "a")]⟩
        [ClassAttr.fieldDecl "f2" ⟨some ["b"], true⟩] =
      .ok (⟨[("f1", ⟨some ["a"], false⟩), ("f2", ⟨some ["b"], true⟩)], [("type", "a")]⟩,
        ⟨[("f1", ⟨some ["a"], false⟩), ("f2", ⟨some ["b"], true⟩)], [("type", "a")]⟩) ∧
    (⟨[("f1", ⟨some ["a"], false⟩), ("f2", ⟨some ["b"], true⟩)], [("type", "a")]⟩ : PyClass) ≠
      ⟨[("f1", ⟨some ["a"], false⟩)], [("type", "a")]⟩ :=
  ⟨rfl, by decide⟩

/-- C9 (counterexample): an indexer class that declares no `Meta` block
passes class definition without any error even though its merged
grouping metadata has no `type` tag — the check at lines 40–43 only runs
when a `Meta` attribute is present, so the claim "absence of `type` is a
fatal error at class-definition time" fails on this input. -/
theorem c9_no_meta_not_checked :
    indexerMetaclassNew ⟨[], []⟩ [ClassAttr.fieldDecl "f" ⟨Option.none, false⟩] =
      .ok (⟨[("f", ⟨Option.none, false⟩)], []⟩, ⟨[("f", ⟨Option.none, false⟩)], []⟩) ∧
    dlookup ([] : List (String × String)) "type" = Option.none :=
  ⟨rfl, rfl⟩

/-- C9 (amended): the missing-`type` configuration error is raised at
class-definition time exactly for classes that declare a `Meta` block
whose merged metadata lacks `type`; a class body with no `Meta` block is
never checked and always defines successfully. -/
theorem c9_type_check_on_meta_block (parent : PyClass) (attrs : List ClassAttr) :
    (∀ l1 mb l2, attrs = l1 ++ ClassAttr.metaBlock mb :: l2 → hasMetaBlock l1 = false →
      dlookup (dmerge parent.meta mb) "type" = Option.none →
      indexerMetaclassNew parent attrs = .error ()) ∧
    (hasMetaBlock attrs = false → ∃ res, indexerMetaclassNew parent attrs = .ok res) := by
  constructor
  · rintro l1 mb l2 rfl hnb hmissing
    rcases metaLoop_no_meta_append l1 hnb (ClassAttr.metaBlock mb :: l2)
      parent.base_fields parent.meta with ⟨bf', hbf'⟩
    unfold indexerMetaclassNew
    rw [hbf']
    simp only [metaLoop, hmissing, Option.isSome_none, Bool.false_eq_true, if_false]
  · intro hnb
    rcases metaLoop_no_meta_ok attrs hnb parent.base_fields parent.meta with ⟨bf', hbf'⟩
    exact ⟨_, by unfold indexerMetaclassNew; rw [hbf']⟩

/-- C9 witness: a concrete class declaring a `Meta` block without a
`type` key is rejected at definition time. -/
theorem c9_type_check_on_meta_block_witness :
    indexerMetaclassNew ⟨[], []⟩ [ClassAttr.metaBlock [("group", "g")]] = .error () :=
  (c9_type_check_on_meta_block ⟨[], []⟩ [ClassAttr.metaBlock [("group", "g")]]).1
    [] [("group", "g")] [] rfl rfl rfl

/-! ## Resolution lemmas -/

/-- Hook dispatch never rewinds the clock. -/
theorem dispatchHook_tick_ge (I : IdxInst) (env : TEnv) (clock : Nat → Nat)
    (hname : String) (r : Value) (k : Nat) :
    k ≤ (dispatchHook I env clock hname r k).2 := by
  unfold dispatchHook
  rcases hh : env.hooks hname with _ | h <;> simp only [hh]
  · split
    · exact Nat.le_refl k
    · split
      · exact Nat.le_succ k
      · exact Nat.le_refl k
  · exact Nat.le_refl k

/-- Field resolution never rewinds the clock. -/
theorem resolveField_tick_ge (I : IdxInst) (env : TEnv) (clock : Nat → Nat) (r : Value)
    (fname : String) (f : PyField) (k : Nat) :
    k ≤ (resolveField I env clock r fname f k).2 := by
  unfold resolveField
  rcases hp : f.attrPath with _ | path <;> simp only [hp]
  · exact dispatchHook_tick_ge I env clock _ r k
  · exact Nat.le_refl k

/-- Hook dispatch outcomes, abstracted to truthiness, are independent of
the clock tick: the tick is read only by the built-in timestamp hook,
whose datetime result is truthy. -/
theorem dispatchHook_status (I : IdxInst) (env : TEnv) (clock : Nat → Nat)
    (hname : String) (r : Value) (k : Nat) :
    statusOf (dispatchHook I env clock hname r k).1 =
      statusOf (dispatchHook I env clock hname r 0).1 := by
  unfold dispatchHook
  rcases hh : env.hooks hname with _ | h <;> simp only [hh]
  · by_cases h1 : hname = "meta_type"
    · simp only [if_pos h1]
    · by_cases h2 : hname = "meta_index_timestamp"
      · simp only [if_neg h1, if_pos h2]
        rfl
      · simp only [if_neg h1, if_neg h2]

/-- Whether a field resolves, with which error, and whether the value is
truthy are all independent of the clock tick. -/
theorem resolveField_status (I : IdxInst) (env : TEnv) (clock : Nat → Nat) (r : Value)
    (fname : String) (f : PyField) (k : Nat) :
    statusOf (resolveField I env clock r fname f k).1 = resolveStatus I env clock r fname f := by
  unfold resolveStatus resolveField
  rcases hp : f.attrPath with _ | path <;> simp only [hp]
  exact dispatchHook_status I env clock _ r k

/-! ## transformGo reduction and invariants -/

theorem transformGo_nil (I : IdxInst) (env : TEnv) (clock : Nat → Nat) (r : Value)
    (doc : Doc) (k : Nat) :
    transformGo I env clock r [] doc k = .ok (doc, k) := rfl

theorem transformGo_cons_ok (I : IdxInst) (env : TEnv) (clock : Nat → Nat) (r : Value)
    (fname : String) (f : PyField) (rest : List (String × PyField)) (doc : Doc)
    (k : Nat) (v : Value) (k1 : Nat)
    (h : resolveField I env clock r fname f k = (.ok v, k1)) :
    transformGo I env clock r ((fname, f) :: rest) doc k =
      transformGo I env clock r rest (if truthy v then dupdate doc fname v else doc) k1 := by
  simp only [transformGo, h]

theorem transformGo_cons_attrErr (I : IdxInst) (env : TEnv) (clock : Nat → Nat) (r : Value)
    (fname : String) (f : PyField) (rest : List (String × PyField)) (doc : Doc)
    (k : Nat) (k1 : Nat)
    (h : resolveField I env clock r fname f k = (.error PyErr.attributeError, k1)) :
    transformGo I env clock r ((fname, f) :: rest) doc k =
      if f.optional then transformGo I env clock r rest doc k1
      else .error PyErr.attributeError := by
  simp only [transformGo, h]

theorem transformGo_cons_keyErr (I : IdxInst) (env : TEnv) (clock : Nat → Nat) (r : Value)
    (fname : String) (f : PyField) (rest : List (String × PyField)) (doc : Doc)
    (k : Nat) (k1 : Nat)
    (h : resolveField I env clock r fname f k = (.error PyErr.keyError, k1)) :
    transformGo I env clock r ((fname, f) :: rest) doc k = .error PyErr.keyError := by
  simp only [transformGo, h]

/-- The transform loop never rewinds the clock. -/
theorem transformGo_tick_ge (I : IdxInst) (env : TEnv) (clock : Nat → Nat) (r : Value) :
    ∀ (fields : List (String × PyField)) (doc : Doc) (k : Nat) (doc' : Doc) (k' : Nat),
      transformGo I env clock r fields doc k = .ok (doc', k') → k ≤ k' := by
  intro fields
  induction fields with
  | nil =>
    intro doc k doc' k' h
    rw [transformGo_nil] at h
    simp only [Except.ok.injEq, Prod.mk.injEq] at h
    exact h.2 ▸ Nat.le_refl k
  | cons p rest ih =>
    rcases p with ⟨fname, f⟩
    intro doc k doc' k' h
    rcases hrf : resolveField I env clock r fname f k with ⟨res, k1⟩
    have hk1 : k ≤ k1 := by
      have := resolveField_tick_ge I env clock r fname f k
      rw [hrf] at this
      exact this
    cases res with
    | ok v =>
      rw [transformGo_cons_ok I env clock r fname f rest doc k v k1 hrf] at h
      exact Nat.le_trans hk1 (ih _ _ _ _ h)
    | error e =>
      cases e with
      | attributeError =>
        rw [transformGo_cons_attrErr I env clock r fname f rest doc k k1 hrf] at h
        by_cases hopt : f.optional = true
        · rw [if_pos hopt] at h
          exact Nat.le_trans hk1 (ih _ _ _ _ h)
        · rw [if_neg hopt] at h
          cases h
      | keyError =>
        rw [transformGo_cons_keyErr I env clock r fname f rest doc k k1 hrf] at h
        cases h

/-- Names not bound as fields are untouched by the transform loop. -/
theorem transformGo_frame (I : IdxInst) (env : TEnv) (clock : Nat → Nat) (r : Value) :
    ∀ (fields : List (String × PyField)) (doc : Doc) (k : Nat) (doc' : Doc) (k' : Nat)
      (n : String), n ∉ fields.map Prod.fst →
      transformGo I env clock r fields doc k = .ok (doc', k') →
      dlookup doc' n = dlookup doc n := by
  intro fields
  induction fields with
  | nil =>
    intro doc k doc' k' n _ h
    rw [transformGo_nil] at h
    simp only [Except.ok.injEq, Prod.mk.injEq] at h
    rw [h.1]
  | cons p rest ih =>
    rcases p with ⟨fname, f⟩
    intro doc k doc' k' n hn h
    simp only [List.map_cons, List.mem_cons] at hn
    push_neg at hn
    rcases hrf : resolveField I env clock r fname f k with ⟨res, k1⟩
    cases res with
    | ok v =>
      rw [transformGo_cons_ok I env clock r fname f rest doc k v k1 hrf] at h
      have := ih _ _ _ _ n hn.2 h
      rw [this]
      by_cases htv : truthy v = true
      · rw [if_pos htv]
        exact dlookup_dupdate_other doc fname v n hn.1
      · rw [if_neg htv]
    | error e =>
      cases e with
      | attributeError =>
        rw [transformGo_cons_attrErr I env clock r fname f rest doc k k1 hrf] at h
        by_cases hopt : f.optional = true
        · rw [if_pos hopt] at h
          exact ih _ _ _ _ n hn.2 h
        · rw [if_neg hopt] at h
          cases h
      | keyError =>
        rw [transformGo_cons_keyErr I env clock r fname f rest doc k k1 hrf] at h
        cases h

/-- A bound field that always resolves to a truthy value ends up in the
result document, resolved at some tick inside this transform's tick
window. -/
theorem transformGo_val (I : IdxInst) (env : TEnv) (clock : Nat → Nat) (r : Value)
    (p0 : String × PyField) :
    ∀ (fields : List (String × PyField)) (doc : Doc) (k : Nat) (doc' : Doc) (k' : Nat),
      p0 ∈ fields → (fields.map Prod.fst).Nodup →
      (∀ kk, ∃ v, (resolveField I env clock r p0.1 p0.2 kk).1 = .ok v ∧ truthy v = true) →
      transformGo I env clock r fields doc k = .ok (doc', k') →
      ∃ j v, k ≤ j ∧ (resolveField I env clock r p0.1 p0.2 j).1 = .ok v ∧
        (resolveField I env clock r p0.1 p0.2 j).2 ≤ k' ∧ dlookup doc' p0.1 = some v := by
  intro fields
  induction fields with
  | nil =>
    intro doc k doc' k' hmem
    exact absurd hmem (List.not_mem_nil p0)
  | cons p rest ih =>
    rcases p with ⟨fname, f⟩
    intro doc k doc' k' hmem hnd hok h
    have hnd' : fname ∉ rest.map Prod.fst ∧ (rest.map Prod.fst).Nodup := by
      simpa [List.nodup_cons] using hnd
    rcases List.mem_cons.1 hmem with heq | hmem'
    · rcases heq with rfl
      dsimp only at hok ⊢
      rcases hok k with ⟨v, hv, htv⟩
      rcases hrf : resolveField I env clock r fname f k with ⟨res, k1⟩
      rw [hrf] at hv
      dsimp only at hv
      subst hv
      rw [transformGo_cons_ok I env clock r fname f rest doc k v k1 hrf] at h
      rw [if_pos htv] at h
      refine ⟨k, v, Nat.le_refl k, ?_, ?_, ?_⟩
      · rw [hrf]
      · rw [hrf]
        exact transformGo_tick_ge I env clock r rest _ k1 doc' k' h
      · rw [transformGo_frame I env clock r rest _ k1 doc' k' fname hnd'.1 h]
        exact dlookup_dupdate_self doc fname v
    · rcases hrf : resolveField I env clock r fname f k with ⟨res, k1⟩
      have hk1 : k ≤ k1 := by
        have := resolveField_tick_ge I env clock r fname f k
        rw [hrf] at this
        exact this
      cases res with
      | ok v =>
        rw [transformGo_cons_ok I env clock r fname f rest doc k v k1 hrf] at h
        rcases ih _ _ _ _ hmem' hnd'.2 hok h with ⟨j, v', hj, h1, h2, h3⟩
        exact ⟨j, v', Nat.le_trans hk1 hj, h1, h2, h3⟩
      | error e =>
        cases e with
        | attributeError =>
          rw [transformGo_cons_attrErr I env clock r fname f rest doc k k1 hrf] at h
          by_cases hopt : f.optional = true
          · rw [if_pos hopt] at h
            rcases ih _ _ _ _ hmem' hnd'.2 hok h with ⟨j, v', hj, h1, h2, h3⟩
            exact ⟨j, v', Nat.le_trans hk1 hj, h1, h2, h3⟩
          · rw [if_neg hopt] at h
            cases h
        | keyError =>
          rw [transformGo_cons_keyErr I env clock r fname f rest doc k k1 hrf] at h
          cases h

/-- When every field either resolves or is optional failing with
`AttributeError`, the transform loop succeeds and the produced document
binds exactly the truthy-resolving field names, in field order, all with
truthy values. -/
theorem transformGo_keys (I : IdxInst) (env : TEnv) (clock : Nat → Nat) (r : Value) :
    ∀ (fields : List (String × PyField)) (doc : Doc) (k : Nat),
      (doc.map Prod.fst ++ fields.map Prod.fst).Nodup →
      (∀ p ∈ fields, (∃ b, resolveStatus I env clock r p.1 p.2 = .ok b) ∨
        (p.2.optional = true ∧
          resolveStatus I env clock r p.1 p.2 = .error PyErr.attributeError)) →
      ∃ doc' k', transformGo I env clock r fields doc k = .ok (doc', k') ∧
        doc'.map Prod.fst = doc.map Prod.fst ++
          (fields.filter (statusTrue I env clock r)).map Prod.fst ∧
        (∀ q ∈ doc', q ∈ doc ∨ truthy q.2 = true) := by
  intro fields
  induction fields with
  | nil =>
    intro doc k _ _
    exact ⟨doc, k, rfl, by simp, fun q hq => Or.inl hq⟩
  | cons p rest ih =>
    rcases p with ⟨fname, f⟩
    intro doc k hnd hreq
    have hndparts : fname ∉ doc.map Prod.fst ∧
        (doc.map Prod.fst ++ rest.map Prod.fst).Nodup := by
      constructor
      · intro hmem
        rcases List.nodup_append.1 (by simpa using hnd) with ⟨_, _, hdisj⟩
        exact hdisj hmem (List.mem_cons_self _ _)
      · refine List.Nodup.sublist ?_ (by simpa using hnd)
        exact List.Sublist.append_left (List.sublist_cons_self _ _) _
    rcases hrf : resolveField I env clock r fname f k with ⟨res, k1⟩
    have hstat : statusOf res = resolveStatus I env clock r fname f := by
      have := resolveField_status I env clock r fname f k
      rw [hrf] at this
      exact this
    have hhead := hreq (fname, f) (List.mem_cons_self _ _)
    dsimp only at hhead
    have hreqrest : ∀ p ∈ rest, (∃ b, resolveStatus I env clock r p.1 p.2 = .ok b) ∨
        (p.2.optional = true ∧
          resolveStatus I env clock r p.1 p.2 = .error PyErr.attributeError) :=
      fun p hp => hreq p (List.mem_cons_of_mem _ hp)
    rcases hhead with ⟨b, hb⟩ | ⟨hopt, herr⟩
    · cases res with
      | error e =>
        rw [← hstat] at hb
        simp [statusOf] at hb
      | ok v =>
        have hbv : truthy v = b := by
          rw [← hstat] at hb
          simpa [statusOf] using hb
        rw [transformGo_cons_ok I env clock r fname f rest doc k v k1 hrf]
        cases b with
        | true =>
          rw [if_pos hbv]
          have hdup : dupdate doc fname v = doc ++ [(fname, v)] :=
            dupdate_of_not_mem v hndparts.1
          have hnd2 : ((dupdate doc fname v).map Prod.fst ++ rest.map Prod.fst).Nodup := by
            rw [hdup]
            simpa [List.append_assoc] using hnd
          rcases ih (dupdate doc fname v) k1 hnd2 hreqrest with ⟨doc', k', heq, hkeys, hq⟩
          have hst : statusTrue I env clock r (fname, f) = true := by
            simp [statusTrue, hb]
          refine ⟨doc', k', heq, ?_, ?_⟩
          · rw [hkeys, hdup, List.filter_cons_of_pos hst]
            simp [List.append_assoc]
          · intro q hq'
            rcases hq q hq' with hq2 | hq2
            · rw [hdup] at hq2
              rcases List.mem_append.1 hq2 with hq3 | hq3
              · exact Or.inl hq3
              · right
                have : q = (fname, v) := by simpa using hq3
                rw [this]
                exact hbv
            · exact Or.inr hq2
        | false =>
          rw [if_neg (by rw [hbv]; exact Bool.false_ne_true)]
          rcases ih doc k1 hndparts.2 hreqrest with ⟨doc', k', heq, hkeys, hq⟩
          have hst : statusTrue I env clock r (fname, f) = false := by
            simp [statusTrue, hb]
          refine ⟨doc', k', heq, ?_, hq⟩
          rw [hkeys, List.filter_cons_of_neg (by rw [hst]; exact Bool.false_ne_true)]
    · cases res with
      | ok v =>
        rw [← hstat] at herr
        simp [statusOf] at herr
      | error e =>
        have he : e = PyErr.attributeError := by
          rw [← hstat] at herr
          simpa [statusOf] using herr
        subst he
        rw [transformGo_cons_attrErr I env clock r fname f rest doc k k1 hrf]
        rw [if_pos hopt]
        rcases ih doc k1 hndparts.2 hreqrest with ⟨doc', k', heq, hkeys, hq⟩
        have hst : statusTrue I env clock r (fname, f) = false := by
          simp [statusTrue, herr]
        refine ⟨doc', k', heq, ?_, hq⟩
        rw [hkeys, List.filter_cons_of_neg (by rw [hst]; exact Bool.false_ne_true)]

/-- A required field whose resolution raises makes the whole transform
loop raise. -/
theorem transformGo_required_fail (I : IdxInst) (env : TEnv) (clock : Nat → Nat) (r : Value)
    (p0 : String × PyField) :
    ∀ (fields : List (String × PyField)) (doc : Doc) (k : Nat),
      p0 ∈ fields → p0.2.optional = false →
      (∃ e0, resolveStatus I env clock r p0.1 p0.2 = .error e0) →
      ∃ e, transformGo I env clock r fields doc k = .error e := by
  intro fields
  induction fields with
  | nil =>
    intro doc k hmem
    exact absurd hmem (List.not_mem_nil p0)
  | cons p rest ih =>
    rcases p with ⟨fname, f⟩
    intro doc k hmem hopt herr
    rcases hrf : resolveField I env clock r fname f k with ⟨res, k1⟩
    have hstat : statusOf res = resolveStatus I env clock r fname f := by
      have := resolveField_status I env clock r fname f k
      rw [hrf] at this
      exact this
    rcases List.mem_cons.1 hmem with heq | hmem'
    · rcases heq with rfl
      dsimp only at hopt herr
      rcases herr with ⟨e0, he0⟩
      cases res with
      | ok v =>
        rw [← hstat] at he0
        simp [statusOf] at he0
      | error e =>
        cases e with
        | attributeError =>
          rw [transformGo_cons_attrErr I env clock r fname f rest doc k k1 hrf]
          rw [if_neg (by rw [hopt]; exact Bool.false_ne_true)]
          exact ⟨PyErr.attributeError, rfl⟩
        | keyError =>
          exact ⟨PyErr.keyError, transformGo_cons_keyErr I env clock r fname f rest doc k k1 hrf⟩
    · cases res with
      | ok v =>
        rw [transformGo_cons_ok I env clock r fname f rest doc k v k1 hrf]
        exact ih _ _ hmem' hopt herr
      | error e =>
        cases e with
        | attributeError =>
          rw [transformGo_cons_attrErr I env clock r fname f rest doc k k1 hrf]
          by_cases hfo : f.optional = true
          · rw [if_pos hfo]
            exact ih _ _ hmem' hopt herr
          · rw [if_neg hfo]
            exact ⟨PyErr.attributeError, rfl⟩
        | keyError =>
          exact ⟨PyErr.keyError, transformGo_cons_keyErr I env clock r fname f rest doc k k1 hrf⟩

/-- A field whose resolution raises `AttributeError` never writes its
key: on success the document binds that name exactly as before the
loop. -/
theorem transformGo_fail_no_key (I : IdxInst) (env : TEnv) (clock : Nat → Nat) (r : Value)
    (p0 : String × PyField) :
    ∀ (fields : List (String × PyField)) (doc : Doc) (k : Nat) (doc' : Doc) (k' : Nat),
      p0 ∈ fields → (fields.map Prod.fst).Nodup →
      resolveStatus I env clock r p0.1 p0.2 = .error PyErr.attributeError →
      transformGo I env clock r fields doc k = .ok (doc', k') →
      dlookup doc' p0.1 = dlookup doc p0.1 := by
  intro fields
  induction fields with
  | nil =>
    intro doc k doc' k' hmem
    exact absurd hmem (List.not_mem_nil p0)
  | cons p rest ih =>
    rcases p with ⟨fname, f⟩
    intro doc k doc' k' hmem hnd herr h
    have hnd' : fname ∉ rest.map Prod.fst ∧ (rest.map Prod.fst).Nodup := by
      simpa [List.nodup_cons] using hnd
    rcases hrf : resolveField I env clock r fname f k with ⟨res, k1⟩
    have hstat : statusOf res = resolveStatus I env clock r fname f := by
      have := resolveField_status I env clock r fname f k
      rw [hrf] at this
      exact this
    rcases List.mem_cons.1 hmem with heq | hmem'
    · rcases heq with rfl
      dsimp only at herr ⊢
      cases res with
      | ok v =>
        rw [← hstat] at herr
        simp [statusOf] at herr
      | error e =>
        have he : e = PyErr.attributeError := by
          rw [← hstat] at herr
          simpa [statusOf] using herr
        subst he
        rw [transformGo_cons_attrErr I env clock r fname f rest doc k k1 hrf] at h
        by_cases hfo : f.optional = true
        · rw [if_pos hfo] at h
          exact transformGo_frame I env clock r rest doc k1 doc' k' fname hnd'.1 h
        · rw [if_neg hfo] at h
          cases h
    · have hne : p0.1 ≠ fname := by
        intro he
        exact hnd'.1 (he ▸ List.mem_map.2 ⟨p0, hmem', rfl⟩)
      cases res with
      | ok v =>
        rw [transformGo_cons_ok I env clock r fname f rest doc k v k1 hrf] at h
        have := ih _ _ _ _ hmem' hnd'.2 herr h
        rw [this]
        by_cases htv : truthy v = true
        · rw [if_pos htv]
          exact dlookup_dupdate_other doc fname v p0.1 hne
        · rw [if_neg htv]
      | error e =>
        cases e with
        | attributeError =>
          rw [transformGo_cons_attrErr I env clock r fname f rest doc k k1 hrf] at h
          by_cases hfo : f.optional = true
          · rw [if_pos hfo] at h
            exact ih _ _ _ _ hmem' hnd'.2 herr h
          · rw [if_neg hfo] at h
            cases h
        | keyError =>
          rw [transformGo_cons_keyErr I env clock r fname f rest doc k k1 hrf] at h
          cases h

/-- In a dict with distinct keys, entries agree when their keys do. -/
theorem mem_eq_of_nodup_keys {κ : Type u} {α : Type v} (l : List (κ × α))
    (hnd : (l.map Prod.fst).Nodup) {p q : κ × α} (hp : p ∈ l) (hq : q ∈ l)
    (he : p.1 = q.1) : p = q := by
  induction l with
  | nil => exact absurd hp (List.not_mem_nil p)
  | cons a rest ih =>
    simp only [List.map_cons, List.nodup_cons] at hnd
    rcases List.mem_cons.1 hp with rfl | hp'
    · rcases List.mem_cons.1 hq with rfl | hq'
      · rfl
      · exact absurd (he ▸ List.mem_map.2 ⟨q, hq', rfl⟩) hnd.1
    · rcases List.mem_cons.1 hq with rfl | hq'
      · exact absurd (he ▸ List.mem_map.2 ⟨p, hp', rfl⟩) hnd.1
      · exact ih hnd.2 hp' hq'

/-- Under the standard system-field setup, `meta_type_s` resolves at
every tick to the string type tag, without consuming a tick. -/
theorem resolveField_meta_type (I : IdxInst) (env : TEnv) (clock : Nat → Nat) (tag : String)
    (r : Value) (Hsys : standardSys I env tag) (kk : Nat) :
    resolveField I env clock r "meta_type_s" ⟨Option.none, false⟩ kk =
      (.ok (Value.str tag), kk) := by
  rcases Hsys with ⟨_, _, hs1, _, hh1, _, htag, _⟩
  unfold resolveField dispatchHook
  simp [hs1, hh1, htag]

/-- Under the standard system-field setup, `meta_index_timestamp_dt`
resolves at every tick to the clock reading at that tick, consuming it. -/
theorem resolveField_meta_ts (I : IdxInst) (env : TEnv) (clock : Nat → Nat) (tag : String)
    (r : Value) (Hsys : standardSys I env tag) (kk : Nat) :
    resolveField I env clock r "meta_index_timestamp_dt" ⟨Option.none, false⟩ kk =
      (.ok (Value.timestamp (clock kk)), kk + 1) := by
  rcases Hsys with ⟨_, _, _, hs2, _, hh2, _, _⟩
  unfold resolveField dispatchHook
  simp [hs2, hh2]

/-! ## Claims C3, C4, C5 -/

/-- C3: every document produced by `transform` carries `meta_type_s`
equal to the indexer's type tag, and `meta_index_timestamp_dt` equal to
the current time read at a tick `j` inside this record's own tick window
`[k, k')` — i.e. evaluated freshly for this record, not once per batch:
successive records have disjoint windows because the tick strictly
advances (`k < k'`).  With a monotone clock and construction
(`index_timestamp = clock k0`) preceding the call (`k0 ≤ k`), that
timestamp is at least the run's watermark. -/
theorem c3_meta_fields_fresh (I : IdxInst) (env : TEnv) (clock : Nat → Nat) (tag : String)
    (r : Value) (k k' k0 : Nat) (doc : Doc)
    (Hsys : standardSys I env tag)
    (HN : (I.fields.map Prod.fst).Nodup)
    (Hts : I.index_timestamp = clock k0)
    (Hmono : ∀ i j, i ≤ j → clock i ≤ clock j)
    (Hk : k0 ≤ k)
    (H : transform I env clock r k = .ok (doc, k')) :
    dlookup doc "meta_type_s" = some (Value.str tag) ∧
    (∃ j, k ≤ j ∧ j < k' ∧
      dlookup doc "meta_index_timestamp_dt" = some (Value.timestamp (clock j)) ∧
      I.index_timestamp ≤ clock j) ∧
    k < k' := by
  have Hmem1 := Hsys.1
  have Hmem2 := Hsys.2.1
  have Htagne := Hsys.2.2.2.2.2.2.2
  have httag : truthy (Value.str tag) = true := by
    simp [truthy, Htagne]
  have h1 := transformGo_val I env clock r ("meta_type_s", ⟨Option.none, false⟩)
    I.fields [] k doc k' Hmem1 HN
    (fun kk => ⟨Value.str tag, by rw [resolveField_meta_type I env clock tag r Hsys kk], httag⟩) H
  have h2 := transformGo_val I env clock r ("meta_index_timestamp_dt", ⟨Option.none, false⟩)
    I.fields [] k doc k' Hmem2 HN
    (fun kk => ⟨Value.timestamp (clock kk),
      by rw [resolveField_meta_ts I env clock tag r Hsys kk], rfl⟩) H
  rcases h1 with ⟨j1, v1, _, hv1, _, hl1⟩
  rcases h2 with ⟨j2, v2, hj2, hv2, hk2, hl2⟩
  rw [resolveField_meta_type I env clock tag r Hsys j1] at hv1
  rw [resolveField_meta_ts I env clock tag r Hsys j2] at hv2 hk2
  simp only at hv1 hv2 hk2
  injection hv1 with hv1
  injection hv2 with hv2
  refine ⟨?_, ⟨j2, hj2, ?_, ?_, ?_⟩, ?_⟩
  · rw [hl1, ← hv1]
  · omega
  · rw [hl2, ← hv2]
  · rw [Hts]
    exact Hmono k0 j2 (Nat.le_trans Hk hj2)
  · omega

/-- C3 witness: the article indexer, constructed at tick 0 and fed a
record at tick 1, stamps the document with its tag and with time 1. -/
theorem c3_meta_fields_fresh_witness :
    dlookup articleDoc "meta_type_s" = some (Value.str "article") ∧
    (∃ j, 1 ≤ j ∧ j < 2 ∧
      dlookup articleDoc "meta_index_timestamp_dt" = some (Value.timestamp (idClock j)) ∧
      articleIndexer.index_timestamp ≤ idClock j) ∧
    1 < 2 :=
  c3_meta_fields_fresh articleIndexer sampleEnv idClock "article" blankRecord 1 2 0 articleDoc
    ⟨by decide, by decide, rfl, rfl, rfl, rfl, rfl, by decide⟩
    (by decide) rfl (fun i j h => h) (by decide) rfl

/-- C4: on a record where every field either resolves or is optional
failing with `AttributeError`, `transform` succeeds and the document's
keys are exactly the bound fields whose resolved value is truthy —
including the two system fields — in field order; falsy resolved values
are never written. -/
theorem c4_document_keys (I : IdxInst) (env : TEnv) (clock : Nat → Nat) (tag : String)
    (r : Value) (k : Nat)
    (Hsys : standardSys I env tag)
    (HN : (I.fields.map Prod.fst).Nodup)
    (HR : ∀ p ∈ I.fields, (∃ b, resolveStatus I env clock r p.1 p.2 = .ok b) ∨
      (p.2.optional = true ∧
        resolveStatus I env clock r p.1 p.2 = .error PyErr.attributeError)) :
    ∃ doc k', transform I env clock r k = .ok (doc, k') ∧
      doc.map Prod.fst = (I.fields.filter (statusTrue I env clock r)).map Prod.fst ∧
      "meta_type_s" ∈ doc.map Prod.fst ∧
      "meta_index_timestamp_dt" ∈ doc.map Prod.fst ∧
      (∀ q ∈ doc, truthy q.2 = true) ∧
      (∀ p ∈ I.fields, resolveStatus I env clock r p.1 p.2 = .ok false →
        dlookup doc p.1 = Option.none) := by
  have Htagne := Hsys.2.2.2.2.2.2.2
  have hst1 : resolveStatus I env clock r "meta_type_s" ⟨Option.none, false⟩ = .ok true := by
    unfold resolveStatus
    rw [resolveField_meta_type I env clock tag r Hsys 0]
    simp [statusOf, truthy, Htagne]
  have hst2 : resolveStatus I env clock r "meta_index_timestamp_dt" ⟨Option.none, false⟩ =
      .ok true := by
    unfold resolveStatus
    rw [resolveField_meta_ts I env clock tag r Hsys 0]
    rfl
  rcases transformGo_keys I env clock r I.fields [] k (by simpa using HN) HR with
    ⟨doc, k', heq, hkeys, hq⟩
  have hkeys' : doc.map Prod.fst =
      (I.fields.filter (statusTrue I env clock r)).map Prod.fst := by
    simpa using hkeys
  refine ⟨doc, k', heq, hkeys', ?_, ?_, ?_, ?_⟩
  · rw [hkeys']
    exact List.mem_map.2 ⟨_, List.mem_filter.2 ⟨Hsys.1, by simp [statusTrue, hst1]⟩, rfl⟩
  · rw [hkeys']
    exact List.mem_map.2 ⟨_, List.mem_filter.2 ⟨Hsys.2.1, by simp [statusTrue, hst2]⟩, rfl⟩
  · intro q hq'
    rcases hq q hq' with h | h
    · exact absurd h (List.not_mem_nil q)
    · exact h
  · intro p hp hfalse
    apply dlookup_eq_none_of_not_mem
    rw [hkeys']
    intro hmem'
    rcases List.mem_map.1 hmem' with ⟨p', hp', hp'1⟩
    have hf := List.mem_filter.1 hp'
    have hpp : p' = p := mem_eq_of_nodup_keys I.fields HN hf.1 hp hp'1
    rw [hpp] at hf
    have : statusTrue I env clock r p = false := by
      simp [statusTrue, hfalse]
    rw [this] at hf
    exact absurd hf.2 Bool.false_ne_true

/-- C4 witness: the book indexer on a record with an `id` but no `title`
produces a document with exactly `id_i` and the two system fields. -/
theorem c4_document_keys_witness :
    ∃ doc k', transform bookIndexer sampleEnv idClock bookRecord 1 = .ok (doc, k') ∧
      doc.map Prod.fst =
        ((bookIndexer.fields.filter
          (statusTrue bookIndexer sampleEnv idClock bookRecord)).map Prod.fst) ∧
      "meta_type_s" ∈ doc.map Prod.fst ∧
      "meta_index_timestamp_dt" ∈ doc.map Prod.fst ∧
      (∀ q ∈ doc, truthy q.2 = true) ∧
      (∀ p ∈ bookIndexer.fields,
        resolveStatus bookIndexer sampleEnv idClock bookRecord p.1 p.2 = .ok false →
        dlookup doc p.1 = Option.none) :=
  c4_document_keys bookIndexer sampleEnv idClock "book" bookRecord 1
    ⟨by decide, by decide, rfl, rfl, rfl, rfl, rfl, by decide⟩
    (by decide)
    (by
      intro p hp
      fin_cases hp
      · exact Or.inl ⟨true, rfl⟩
      · exact Or.inr ⟨rfl, rfl⟩
      · exact Or.inl ⟨true, rfl⟩
      · exact Or.inl ⟨true, rfl⟩)

/-- C5: a bound field whose resolution raises a missing-attribute error
is silently omitted from any successfully produced document when
optional, and makes the whole `transform` raise when required (so no
partial document is ever returned). -/
theorem c5_resolution_failure (I : IdxInst) (env : TEnv) (clock : Nat → Nat) (r : Value)
    (k : Nat) (fname : String) (f : PyField)
    (HN : (I.fields.map Prod.fst).Nodup)
    (Hmem : (fname, f) ∈ I.fields)
    (Herr : resolveStatus I env clock r fname f = .error PyErr.attributeError) :
    (f.optional = true → ∀ doc k', transform I env clock r k = .ok (doc, k') →
      dlookup doc fname = Option.none) ∧
    (f.optional = false → ∃ e, transform I env clock r k = .error e) := by
  constructor
  · intro _ doc k' h
    have := transformGo_fail_no_key I env clock r (fname, f) I.fields [] k doc k' Hmem HN Herr h
    simpa using this
  · intro hopt
    exact transformGo_required_fail I env clock r (fname, f) I.fields [] k Hmem hopt ⟨_, Herr⟩

/-- C5 witness: the optional `title_t` field of the book indexer is
omitted from the produced document when the record lacks a `title`, and
the required `id_i` field makes `transform` raise on a record without
an `id`. -/
theorem c5_resolution_failure_witness :
    dlookup bookDoc "title_t" = Option.none ∧
    (∃ e, transform bookIndexer sampleEnv idClock blankRecord 1 = .error e) :=
  ⟨(c5_resolution_failure bookIndexer sampleEnv idClock bookRecord 1 "title_t"
      ⟨some ["title"], true⟩ (by decide) (by decide) rfl).1 rfl bookDoc 2 rfl,
    (c5_resolution_failure bookIndexer sampleEnv idClock blankRecord 1 "id_i"
      ⟨some ["id"], false⟩ (by decide) (by decide) rfl).2 rfl⟩

/-! ## reindex loop lemmas -/

/-- `transform` never rewinds the clock. -/
theorem transform_tick_ge (I : IdxInst) (env : TEnv) (clock : Nat → Nat) (r : Value)
    (k : Nat) (doc' : Doc) (k' : Nat)
    (h : transform I env clock r k = .ok (doc', k')) : k ≤ k' :=
  transformGo_tick_ge I env clock r I.fields [] k doc' k' h

theorem specSizes_zero (cnt plen : Nat) :
    specSizes 0 cnt plen = if plen ≠ 0 then [plen] else [] := rfl

theorem specSizes_succ (n cnt plen : Nat) :
    specSizes (n + 1) cnt plen =
      if cnt % COMMIT_CHUNK_SIZE = 0 then plen :: specSizes n (cnt + 1) 1
      else specSizes n (cnt + 1) (plen + 1) := rfl

theorem reindexLoop_nil (I : IdxInst) (env : TEnv) (clock : Nat → Nat)
    (cnt : Nat) (pool : List Doc) (tr : List Call) (k : Nat) (tag : String)
    (htag : dlookup I.meta "type" = some tag) :
    reindexLoop I env clock [] cnt pool tr k =
      .ok ((if pool.length ≠ 0 then tr ++ [Call.add pool] else tr) ++
        [Call.commit, Call.deleteQ tag I.index_timestamp], cnt, k) := by
  simp only [reindexLoop, htag]

theorem reindexLoop_cons_ok (I : IdxInst) (env : TEnv) (clock : Nat → Nat)
    (r : Value) (rs : List Value) (cnt : Nat) (pool : List Doc) (tr : List Call) (k : Nat)
    (doc : Doc) (k1 : Nat)
    (hT : transform I env clock r k = .ok (doc, k1)) :
    reindexLoop I env clock (r :: rs) cnt pool tr k =
      reindexLoop I env clock rs (cnt + 1)
        ((if cnt % COMMIT_CHUNK_SIZE = 0 then ([] : List Doc) else pool) ++ [doc])
        (if cnt % COMMIT_CHUNK_SIZE = 0 then tr ++ [Call.add pool] else tr) k1 := by
  by_cases h : cnt % COMMIT_CHUNK_SIZE = 0 <;> simp [reindexLoop, hT, h]

theorem reindexLoop_cons_err (I : IdxInst) (env : TEnv) (clock : Nat → Nat)
    (r : Value) (rs : List Value) (cnt : Nat) (pool : List Doc) (tr : List Call) (k : Nat)
    (e : PyErr) (hT : transform I env clock r k = .error e) :
    reindexLoop I env clock (r :: rs) cnt pool tr k = .error e := by
  by_cases h : cnt % COMMIT_CHUNK_SIZE = 0 <;> simp [reindexLoop, hT, h]

/-- Structure of a successful reindex run: the emitted trace appends to
the accumulator a batch of `add` calls whose sizes are `specSizes`,
followed by exactly one commit and the reconciliation delete keyed on
the class tag and the construction-time watermark; the count grows by
the number of records and the clock never rewinds. -/
theorem reindexLoop_shape (I : IdxInst) (env : TEnv) (clock : Nat → Nat) :
    ∀ (rs : List Value) (cnt : Nat) (pool : List Doc) (tr : List Call) (k : Nat)
      (tr' : List Call) (n k' : Nat),
      reindexLoop I env clock rs cnt pool tr k = .ok (tr', n, k') →
      ∃ (tag : String) (ds : List (List Doc)), dlookup I.meta "type" = some tag ∧
        tr' = tr ++ ds.map Call.add ++ [Call.commit, Call.deleteQ tag I.index_timestamp] ∧
        ds.map List.length = specSizes rs.length cnt pool.length ∧
        n = cnt + rs.length ∧ k ≤ k' := by
  intro rs
  induction rs with
  | nil =>
    intro cnt pool tr k tr' n k' h
    rcases htag : dlookup I.meta "type" with _ | tag
    · rw [reindexLoop, htag] at h
      cases h
    · rw [reindexLoop_nil I env clock cnt pool tr k tag htag] at h
      simp only [Except.ok.injEq, Prod.mk.injEq] at h
      by_cases hp : pool.length ≠ 0
      · refine ⟨tag, [pool], rfl, ?_, ?_, ?_, ?_⟩
        · rw [← h.1, if_pos hp]
          simp
        · simp [specSizes_zero, hp]
        · rw [← h.2.1]
          simp
        · exact Nat.le_of_eq h.2.2
      · refine ⟨tag, [], rfl, ?_, ?_, ?_, ?_⟩
        · rw [← h.1, if_neg hp]
          simp
        · simp [specSizes_zero, hp]
        · rw [← h.2.1]
          simp
        · exact Nat.le_of_eq h.2.2
  | cons r rs ih =>
    intro cnt pool tr k tr' n k' h
    rcases hT : transform I env clock r k with e | ⟨doc, k1⟩
    · rw [reindexLoop_cons_err I env clock r rs cnt pool tr k e hT] at h
      cases h
    · rw [reindexLoop_cons_ok I env clock r rs cnt pool tr k doc k1 hT] at h
      have hk1 : k ≤ k1 := transform_tick_ge I env clock r k doc k1 hT
      by_cases hc : cnt % COMMIT_CHUNK_SIZE = 0
      · rw [if_pos hc, if_pos hc] at h
        rcases ih (cnt + 1) ([] ++ [doc]) (tr ++ [Call.add pool]) k1 tr' n k' h with
          ⟨tag, ds, htag, htr, hsz, hn, hk⟩
        refine ⟨tag, pool :: ds, htag, ?_, ?_, ?_, ?_⟩
        · rw [htr]
          simp
        · simp only [List.map_cons, hsz, List.length_cons, List.nil_append,
            List.length_singleton]
          rw [specSizes_succ, if_pos hc]
          simp
        · simp only [List.length_cons]
          omega
        · omega
      · rw [if_neg hc, if_neg hc] at h
        rcases ih (cnt + 1) (pool ++ [doc]) tr k1 tr' n k' h with
          ⟨tag, ds, htag, htr, hsz, hn, hk⟩
        refine ⟨tag, ds, htag, htr, ?_, ?_, ?_⟩
        · rw [hsz]
          simp only [List.length_cons, List.length_append, List.length_singleton]
          rw [specSizes_succ, if_neg hc]
          simp
        · simp only [List.length_cons]
          omega
        · omega

/-- A reindex run over a source whose every record transforms
successfully, on a class with a type tag, completes successfully. -/
theorem reindexLoop_success (I : IdxInst) (env : TEnv) (clock : Nat → Nat) (tag : String)
    (htag : dlookup I.meta "type" = some tag) :
    ∀ (rs : List Value),
      (∀ r ∈ rs, ∀ kk, ∃ d kk', transform I env clock r kk = .ok (d, kk')) →
      ∀ (cnt : Nat) (pool : List Doc) (tr : List Call) (k : Nat),
        ∃ tr' n k', reindexLoop I env clock rs cnt pool tr k = .ok (tr', n, k') := by
  intro rs
  induction rs with
  | nil =>
    intro _ cnt pool tr k
    exact ⟨_, _, _, reindexLoop_nil I env clock cnt pool tr k tag htag⟩
  | cons r rs ih =>
    intro hall cnt pool tr k
    rcases hall r (List.mem_cons_self _ _) k with ⟨d, kk', hT⟩
    rcases ih (fun r' hr' kk => hall r' (List.mem_cons_of_mem _ hr') kk) (cnt + 1)
        ((if cnt % COMMIT_CHUNK_SIZE = 0 then ([] : List Doc) else pool) ++ [d])
        (if cnt % COMMIT_CHUNK_SIZE = 0 then tr ++ [Call.add pool] else tr) kk' with
      ⟨tr', n, k', h⟩
    refine ⟨tr', n, k', ?_⟩
    rw [reindexLoop_cons_ok I env clock r rs cnt pool tr k d kk' hT]
    exact h

/-- Counting calls in the canonical reindex trace shape. -/
theorem trace_counts (prefixAdds : List (List Doc)) (tag : String) (wm : Nat) :
    (prefixAdds.map Call.add ++ [Call.commit, Call.deleteQ tag wm]).countP isAdd =
      prefixAdds.length ∧
    (prefixAdds.map Call.add ++ [Call.commit, Call.deleteQ tag wm]).countP isCommit = 1 ∧
    (prefixAdds.map Call.add ++ [Call.commit, Call.deleteQ tag wm]).countP isDelete = 1 := by
  refine ⟨?_, ?_, ?_⟩ <;>
    simp [List.countP_append, List.countP_map, List.countP_cons, Function.comp,
      isAdd, isCommit, isDelete, List.countP_eq_length]

/-- The last call of the canonical reindex trace is the delete. -/
theorem trace_getLast (pre : List Call) (ds : List (List Doc)) (tag : String) (wm : Nat) :
    (pre ++ ds.map Call.add ++ [Call.commit, Call.deleteQ tag wm]).getLast? =
      some (Call.deleteQ tag wm) := by
  rw [show pre ++ ds.map Call.add ++ [Call.commit, Call.deleteQ tag wm] =
    (pre ++ ds.map Call.add ++ [Call.commit]) ++ [Call.deleteQ tag wm] from by simp]
  exact List.getLast?_concat _

/-- The article indexer transforms the blank record the same way at
every tick, stamping the document with the time read at that tick. -/
theorem transform_article (kk : Nat) :
    transform articleIndexer sampleEnv idClock blankRecord kk =
      .ok ([("meta_type_s", Value.str "article"),
        ("meta_index_timestamp_dt", Value.timestamp kk)], kk + 1) := rfl

/-- Every record of a replicated blank source transforms successfully at
every tick. -/
theorem replicate_blank_success (m : Nat) :
    ∀ r ∈ List.replicate m blankRecord, ∀ kk, ∃ d kk',
      transform articleIndexer sampleEnv idClock r kk = .ok (d, kk') := by
  intro r hr kk
  rw [List.eq_of_mem_replicate hr]
  exact ⟨_, _, transform_article kk⟩

set_option maxRecDepth 20000 in
/-- Chunk sizes for a 2500-record run: the initial empty flush, then
1000, 1000 and the 500 remainder. -/
theorem specSizes_2500 : specSizes 2500 0 0 = [0, 1000, 1000, 500] := by decide

/-! ## Claims C1, C2, C7, C10 -/

/-- C1 (amended): a successful `reindex()` over a source of exactly 2500
records issues exactly FOUR backend add calls — one empty flush before
the first record, then batches of 1000, 1000 and 500 transformed
documents — and exactly one commit for the whole run; the commit follows
every add (no commit between chunk flushes) and only the reconciliation
delete comes after it. -/
theorem c1_chunking_2500 (I : IdxInst) (env : TEnv) (clock : Nat → Nat)
    (rs : List Value) (k : Nat) (tr : List Call) (n k' : Nat)
    (Hlen : rs.length = 2500)
    (H : reindex I env clock rs k = .ok (tr, n, k')) :
    ∃ (tag : String) (ds : List (List Doc)), dlookup I.meta "type" = some tag ∧
      tr = ds.map Call.add ++ [Call.commit, Call.deleteQ tag I.index_timestamp] ∧
      ds.map List.length = [0, 1000, 1000, 500] ∧
      tr.countP isAdd = 4 ∧ tr.countP isCommit = 1 := by
  rcases reindexLoop_shape I env clock rs 0 [] [] k tr n k' H with
    ⟨tag, ds, htag, htr, hsz, _, _⟩
  have hsz4 : ds.map List.length = [0, 1000, 1000, 500] := by
    rw [hsz, Hlen]
    exact specSizes_2500
  have hds : ds.length = 4 := by
    simpa using congrArg List.length hsz4
  refine ⟨tag, ds, htag, by simpa using htr, hsz4, ?_, ?_⟩
  · rw [htr]
    simp only [List.nil_append]
    rw [(trace_counts ds tag I.index_timestamp).1, hds]
  · rw [htr]
    simp only [List.nil_append]
    exact (trace_counts ds tag I.index_timestamp).2.1

/-- C1 (counterexample): feeding exactly 2500 records does NOT yield
exactly 3 backend add calls: because the loop flushes the (still empty)
pool before the very first record (`update_count % 1000 == 0` holds at
count 0), a successful 2500-record run issues 4 add calls — sizes 0,
1000, 1000, 500 — refuting the claimed count of 3. -/
theorem c1_three_adds_refuted :
    ∃ (tr : List Call) (n k' : Nat),
      reindex articleIndexer sampleEnv idClock (List.replicate 2500 blankRecord) 1 =
        .ok (tr, n, k') ∧ tr.countP isAdd = 4 ∧ ¬ tr.countP isAdd = 3 := by
  rcases reindexLoop_success articleIndexer sampleEnv idClock "article" rfl
      (List.replicate 2500 blankRecord) (replicate_blank_success 2500) 0 [] [] 1 with
    ⟨tr, n, k', h⟩
  rcases reindexLoop_shape articleIndexer sampleEnv idClock _ 0 [] [] 1 tr n k' h with
    ⟨tag, ds, htag, htr, hsz, _, _⟩
  have hsz4 : ds.map List.length = [0, 1000, 1000, 500] := by
    rw [hsz]
    simp only [List.length_replicate, List.length_nil]
    exact specSizes_2500
  have hds : ds.length = 4 := by
    simpa using congrArg List.length hsz4
  have hadds : tr.countP isAdd = 4 := by
    rw [htr]
    simp only [List.nil_append]
    rw [(trace_counts ds tag articleIndexer.index_timestamp).1, hds]
  exact ⟨tr, n, k', h, hadds, by rw [hadds]; decide⟩

/-- C1 witness: a concrete 2500-record run of the article indexer
exhibits the amended trace shape. -/
theorem c1_chunking_2500_witness :
    ∃ (tr : List Call) (n k' : Nat),
      reindex articleIndexer sampleEnv idClock (List.replicate 2500 blankRecord) 1 =
        .ok (tr, n, k') ∧
      ∃ (tag : String) (ds : List (List Doc)),
        dlookup articleIndexer.meta "type" = some tag ∧
        tr = ds.map Call.add ++
          [Call.commit, Call.deleteQ tag articleIndexer.index_timestamp] ∧
        ds.map List.length = [0, 1000, 1000, 500] ∧
        tr.countP isAdd = 4 ∧ tr.countP isCommit = 1 := by
  rcases reindexLoop_success articleIndexer sampleEnv idClock "article" rfl
      (List.replicate 2500 blankRecord) (replicate_blank_success 2500) 0 [] [] 1 with
    ⟨tr, n, k', h⟩
  exact ⟨tr, n, k', h,
    c1_chunking_2500 articleIndexer sampleEnv idClock _ 1 tr n k'
      (List.length_replicate 2500 blankRecord) h⟩

/-- The reconciliation query matches exactly the documents tagged with
the type tag and stamped strictly before the watermark. -/
theorem qMatches_iff (tag : String) (wm : Nat) (d : Doc) :
    qMatches tag wm d = true ↔
      (dlookup d "meta_type_s" = some (Value.str tag) ∧
        ∃ t, dlookup d "meta_index_timestamp_dt" = some (Value.timestamp t) ∧ t < wm) := by
  unfold qMatches
  rcases h1 : dlookup d "meta_type_s" with _ | v1
  · simp [h1]
  · rcases h2 : dlookup d "meta_index_timestamp_dt" with _ | v2
    · cases v1 <;> simp [h1, h2]
    · cases v1 <;> cases v2 <;> simp [h1, h2]

/-- No document stamped at or after the watermark matches the
reconciliation query. -/
theorem qMatches_ge_false (tag : String) (wm : Nat) (d : Doc) (t : Nat)
    (hd : dlookup d "meta_index_timestamp_dt" = some (Value.timestamp t))
    (ht : wm ≤ t) : qMatches tag wm d = false := by
  by_contra hq
  rw [Bool.not_eq_false] at hq
  rcases (qMatches_iff tag wm d).1 hq with ⟨_, t', ht', hlt⟩
  rw [hd] at ht'
  injection ht' with ht2
  injection ht2 with ht3
  omega

/-- C2: a successful `reindex()` issues exactly one delete-by-query, as
the final call right after the single commit, keyed on the type tag and
the indexer's `startedAt` watermark (`index_timestamp`); the query
selects exactly the documents with `meta_type_s = tag` and
`meta_index_timestamp_dt < startedAt`, and selects none stamped at or
after `startedAt`. -/
theorem c2_delete_by_query (I : IdxInst) (env : TEnv) (clock : Nat → Nat)
    (rs : List Value) (k : Nat) (tr : List Call) (n k' : Nat) (tag : String)
    (Htag : dlookup I.meta "type" = some tag)
    (H : reindex I env clock rs k = .ok (tr, n, k')) :
    tr.countP isDelete = 1 ∧ tr.countP isCommit = 1 ∧
    (∃ ds : List (List Doc),
      tr = ds.map Call.add ++ [Call.commit, Call.deleteQ tag I.index_timestamp]) ∧
    (∀ d : Doc, qMatches tag I.index_timestamp d = true ↔
      (dlookup d "meta_type_s" = some (Value.str tag) ∧
        ∃ t, dlookup d "meta_index_timestamp_dt" = some (Value.timestamp t) ∧
          t < I.index_timestamp)) ∧
    (∀ (d : Doc) (t : Nat),
      dlookup d "meta_index_timestamp_dt" = some (Value.timestamp t) →
      I.index_timestamp ≤ t → qMatches tag I.index_timestamp d = false) := by
  rcases reindexLoop_shape I env clock rs 0 [] [] k tr n k' H with
    ⟨tag', ds, htag', htr, _, _, _⟩
  have hsome : some tag' = some tag := htag'.symm.trans Htag
  injection hsome with hteq
  subst hteq
  refine ⟨?_, ?_, ⟨ds, by simpa using htr⟩, qMatches_iff tag' I.index_timestamp,
    fun d t hd ht => qMatches_ge_false tag' I.index_timestamp d t hd ht⟩
  · rw [htr]
    simp only [List.nil_append]
    exact (trace_counts ds tag' I.index_timestamp).2.2
  · rw [htr]
    simp only [List.nil_append]
    exact (trace_counts ds tag' I.index_timestamp).2.1

/-- C2 witness: the empty-source run of the article indexer. -/
theorem c2_delete_by_query_witness :
    ([Call.commit, Call.deleteQ "article" articleIndexer.index_timestamp] :
        List Call).countP isDelete = 1 ∧
    ([Call.commit, Call.deleteQ "article" articleIndexer.index_timestamp] :
        List Call).countP isCommit = 1 ∧
    (∃ ds : List (List Doc),
      [Call.commit, Call.deleteQ "article" articleIndexer.index_timestamp] =
        ds.map Call.add ++
          [Call.commit, Call.deleteQ "article" articleIndexer.index_timestamp]) ∧
    (∀ d : Doc, qMatches "article" articleIndexer.index_timestamp d = true ↔
      (dlookup d "meta_type_s" = some (Value.str "article") ∧
        ∃ t, dlookup d "meta_index_timestamp_dt" = some (Value.timestamp t) ∧
          t < articleIndexer.index_timestamp)) ∧
    (∀ (d : Doc) (t : Nat),
      dlookup d "meta_index_timestamp_dt" = some (Value.timestamp t) →
      articleIndexer.index_timestamp ≤ t →
      qMatches "article" articleIndexer.index_timestamp d = false) :=
  c2_delete_by_query articleIndexer sampleEnv idClock [] 1
    [Call.commit, Call.deleteQ "article" articleIndexer.index_timestamp] 0 1 "article"
    rfl rfl

/-- C7 (counterexample): the watermark is NOT recaptured at the start of
each `reindex()` run.  The article indexer was constructed at tick 0
(time 0); a first run started at tick 1 and a second run started at
tick 2 (current time 2) both delete with watermark 0 — the second run's
watermark is not the current time at its start, refuting the claim that
each invocation uses a fresh `startedAt`. -/
theorem c7_watermark_not_fresh :
    reindex articleIndexer sampleEnv idClock [blankRecord] 1 =
      .ok ([Call.add [], Call.add [articleDoc], Call.commit, Call.deleteQ "article" 0],
        1, 2) ∧
    reindex articleIndexer sampleEnv idClock [blankRecord] 2 =
      .ok (lateRunTrace, 1, 3) ∧
    idClock 2 ≠ 0 :=
  ⟨rfl, rfl, by decide⟩

/-- C7 (amended): the `startedAt` watermark is captured once, by
`__init__` at instance construction (`index_timestamp = now()`), and
every invocation of `reindex()` on that instance issues its final
delete keyed on this same construction-time watermark, regardless of
the tick at which the run starts. -/
theorem c7_watermark_from_construction (base_fields : List (String × PyField))
    (meta : List (String × String)) (clock : Nat → Nat) (k0 : Nat) (env : TEnv)
    (rs : List Value) (k : Nat) (tr : List Call) (n k' : Nat) (tag : String)
    (Htag : dlookup meta "type" = some tag)
    (H : reindex (initIndexer base_fields meta clock k0).1 env clock rs k =
      .ok (tr, n, k')) :
    (initIndexer base_fields meta clock k0).1.index_timestamp = clock k0 ∧
    tr.getLast? = some (Call.deleteQ tag (clock k0)) := by
  rcases reindexLoop_shape (initIndexer base_fields meta clock k0).1 env clock rs
      0 [] [] k tr n k' H with ⟨tag', ds, htag', htr, _, _, _⟩
  have hsome : some tag' = some tag := htag'.symm.trans Htag
  injection hsome with hteq
  subst hteq
  refine ⟨rfl, ?_⟩
  rw [htr]
  exact trace_getLast [] ds tag' (clock k0)

/-- C7 amended witness: a run of the article indexer started at tick 2
still deletes with the construction-time watermark (time 0). -/
theorem c7_watermark_from_construction_witness :
    articleIndexer.index_timestamp = idClock 0 ∧
    lateRunTrace.getLast? = some (Call.deleteQ "article" (idClock 0)) :=
  c7_watermark_from_construction [] [("type", "article")] idClock 0 sampleEnv
    [blankRecord] 2 lateRunTrace 1 3 "article" rfl rfl

/-- C10: on an empty record source `reindex()` issues no add call at all
(hence no non-empty one), exactly one commit, then the single
reconciliation delete, and returns 0; applied to a backend store whose
documents of this type all predate the watermark (i.e. match the delete
predicate), the run leaves no document carrying the type tag. -/
theorem c10_empty_source (I : IdxInst) (env : TEnv) (clock : Nat → Nat) (k : Nat)
    (tag : String) (idOf : Doc → Nat) (st0 : Store)
    (Htag : dlookup I.meta "type" = some tag)
    (Hold : ∀ p ∈ st0, hasTagB tag p.2 = true →
      qMatches tag I.index_timestamp p.2 = true) :
    reindex I env clock [] k =
      .ok ([Call.commit, Call.deleteQ tag I.index_timestamp], 0, k) ∧
    ([Call.commit, Call.deleteQ tag I.index_timestamp] : List Call).countP isAdd = 0 ∧
    ([Call.commit, Call.deleteQ tag I.index_timestamp] : List Call).countP isCommit = 1 ∧
    ([Call.commit, Call.deleteQ tag I.index_timestamp] : List Call).countP isDelete = 1 ∧
    countTag tag
      (applyCalls idOf st0 [Call.commit, Call.deleteQ tag I.index_timestamp]) = 0 := by
  refine ⟨?_, rfl, rfl, rfl, ?_⟩
  · unfold reindex
    rw [reindexLoop_nil I env clock 0 [] [] k tag Htag]
    simp
  · have happ : applyCalls idOf st0 [Call.commit, Call.deleteQ tag I.index_timestamp] =
        st0.filter (fun p => ! qMatches tag I.index_timestamp p.2) := rfl
    rw [happ, countTag, List.length_eq_zero, List.filter_eq_nil_iff]
    intro p hp
    have hmem := List.mem_of_mem_filter hp
    have hq := List.of_mem_filter hp
    intro hcon
    rw [Hold p hmem hcon] at hq
    simp at hq

/-- C10 witness: an article indexer constructed at time 5, reindexed
over an empty source, wipes the stale article document stamped at
time 0. -/
theorem c10_empty_source_witness :
    reindex lateIndexer sampleEnv idClock [] 6 =
      .ok ([Call.commit, Call.deleteQ "article" lateIndexer.index_timestamp], 0, 6) ∧
    ([Call.commit, Call.deleteQ "article" lateIndexer.index_timestamp] :
        List Call).countP isAdd = 0 ∧
    ([Call.commit, Call.deleteQ "article" lateIndexer.index_timestamp] :
        List Call).countP isCommit = 1 ∧
    ([Call.commit, Call.deleteQ "article" lateIndexer.index_timestamp] :
        List Call).countP isDelete = 1 ∧
    countTag "article"
      (applyCalls constId [(1, oldArticleDoc)]
        [Call.commit, Call.deleteQ "article" lateIndexer.index_timestamp]) = 0 :=
  c10_empty_source lateIndexer sampleEnv idClock 6 "article" constId
    [(1, oldArticleDoc)] rfl (by decide)

/-! ## Backend store lemmas (for C6) -/

theorem addDocs_append (a b : List Call) : addDocs (a ++ b) = addDocs a ++ addDocs b := by
  induction a with
  | nil => rfl
  | cons c rest ih =>
    cases c <;> simp [addDocs, ih]

theorem addDocs_map_add (ds : List (List Doc)) :
    addDocs (ds.map Call.add) = ds.flatten := by
  induction ds with
  | nil => rfl
  | cons d rest ih => simp [addDocs, ih]

/-- The documents carried by a canonical reindex trace. -/
theorem addDocs_shape (ds : List (List Doc)) (tag : String) (wm : Nat) :
    addDocs (ds.map Call.add ++ [Call.commit, Call.deleteQ tag wm]) = ds.flatten := by
  rw [addDocs_append, addDocs_map_add]
  simp [addDocs]

theorem upsertAll_append (idOf : Doc → Nat) (a b : List Doc) (st : Store) :
    upsertAll idOf (a ++ b) st = upsertAll idOf b (upsertAll idOf a st) :=
  List.foldl_append _ _ _ _

/-- Every entry of an upserted store is an old entry or the last batch
document written at its id. -/
theorem mem_upsertAll (idOf : Doc → Nat) :
    ∀ (ds : List Doc) (s : Store), ∀ p ∈ upsertAll idOf ds s,
      p ∈ s ∨ (p.2 ∈ ds ∧ idOf p.2 = p.1) := by
  intro ds
  induction ds with
  | nil => exact fun s p hp => Or.inl hp
  | cons d rest ih =>
    intro s p hp
    rcases ih (dupdate s (idOf d) d) p hp with hp' | hp'
    · rcases mem_dupdate hp' with ⟨hs, _⟩ | he
      · exact Or.inl hs
      · right
        rw [he]
        exact ⟨List.mem_cons_self _ _, rfl⟩
    · exact Or.inr ⟨List.mem_cons_of_mem _ hp'.1, hp'.2⟩

/-- An upserted-store entry whose key belongs to the batch carries a
batch document. -/
theorem upsertAll_at_key (idOf : Doc → Nat) :
    ∀ (ds : List Doc) (s : Store), ∀ p ∈ upsertAll idOf ds s,
      p.1 ∈ ds.map idOf → p.2 ∈ ds ∧ idOf p.2 = p.1 := by
  intro ds
  induction ds with
  | nil =>
    intro s p _ hk
    exact absurd hk (List.not_mem_nil _)
  | cons d rest ih =>
    intro s p hp hk
    by_cases hr : p.1 ∈ rest.map idOf
    · rcases ih (dupdate s (idOf d) d) p hp hr with ⟨h1, h2⟩
      exact ⟨List.mem_cons_of_mem _ h1, h2⟩
    · have hkd : p.1 = idOf d := by
        rcases List.mem_map.1 hk with ⟨d0, hd0, hid⟩
        rcases List.mem_cons.1 hd0 with rfl | hd0'
        · exact hid.symm
        · exact absurd (List.mem_map.2 ⟨d0, hd0', hid⟩) hr
      rcases mem_upsertAll idOf rest (dupdate s (idOf d) d) p hp with hp' | hp'
      · have := dupdate_at_key hp' hkd
        rw [this]
        exact ⟨List.mem_cons_self _ _, hkd.symm⟩
      · exact absurd (hp'.2 ▸ List.mem_map.2 ⟨p.2, hp'.1, rfl⟩) hr

/-- Upserting never removes keys. -/
theorem keys_upsertAll_mono (idOf : Doc → Nat) :
    ∀ (ds : List Doc) (s : Store) (j : Nat),
      j ∈ s.map Prod.fst → j ∈ (upsertAll idOf ds s).map Prod.fst := by
  intro ds
  induction ds with
  | nil => exact fun s j h => h
  | cons d rest ih =>
    intro s j h
    exact ih (dupdate s (idOf d) d) j ((mem_keys_dupdate s (idOf d) d j).2 (Or.inl h))

/-- Every upserted document's id is a key of the resulting store. -/
theorem key_of_doc_in_upsertAll (idOf : Doc → Nat) :
    ∀ (ds : List Doc) (s : Store) (d0 : Doc), d0 ∈ ds →
      idOf d0 ∈ (upsertAll idOf ds s).map Prod.fst := by
  intro ds
  induction ds with
  | nil =>
    intro s d0 h
    exact absurd h (List.not_mem_nil _)
  | cons d rest ih =>
    intro s d0 h
    rcases List.mem_cons.1 h with rfl | h'
    · exact keys_upsertAll_mono idOf rest _ (idOf d0)
        ((mem_keys_dupdate s (idOf d0) d0 (idOf d0)).2 (Or.inr rfl))
    · exact ih _ d0 h'

/-- Applying a canonical reindex trace to a store: upsert all the added
documents (in order), then filter by the reconciliation query. -/
theorem applyCalls_shape (idOf : Doc → Nat) (ds : List (List Doc)) (st : Store)
    (tag : String) (wm : Nat) :
    applyCalls idOf st (ds.map Call.add ++ [Call.commit, Call.deleteQ tag wm]) =
      (upsertAll idOf ds.flatten st).filter (fun p => ! qMatches tag wm p.2) := by
  unfold applyCalls
  rw [List.foldl_append]
  have hadds : ∀ (dss : List (List Doc)) (s : Store),
      (dss.map Call.add).foldl (applyCall idOf) s = upsertAll idOf dss.flatten s := by
    intro dss
    induction dss with
    | nil => exact fun s => rfl
    | cons d rest ih =>
      intro s
      rw [List.map_cons, List.foldl_cons, List.flatten_cons, upsertAll_append]
      exact ih (applyCall idOf s (Call.add d))
  rw [hadds]
  rfl

/-- Keys survive any entrywise rewrite that preserves them. -/
theorem keys_map_fst_preserved {κ : Type u} {α : Type v} (s : List (κ × α))
    (F : κ × α → κ × α) (hF : ∀ p, (F p).1 = p.1) :
    (s.map F).map Prod.fst = s.map Prod.fst := by
  induction s with
  | nil => rfl
  | cons p rest ih => simp [ih, hF]

/-- When every batch id is already a key of the store, upserting acts as
an in-place value rewrite: no entry is added or removed, and each entry
is either untouched or replaced by a batch document bearing its id. -/
theorem upsertAll_map_form (idOf : Doc → Nat) :
    ∀ (ds : List Doc) (s : Store), (∀ d ∈ ds, idOf d ∈ s.map Prod.fst) →
      ∃ f : Nat → Doc → Doc,
        upsertAll idOf ds s = s.map (fun p => (p.1, f p.1 p.2)) ∧
        ∀ i v, f i v = v ∨ (f i v ∈ ds ∧ idOf (f i v) = i) := by
  intro ds
  induction ds with
  | nil =>
    intro s _
    refine ⟨fun _ v => v, ?_, fun i v => Or.inl rfl⟩
    simp [upsertAll]
  | cons d rest ih =>
    intro s hcov
    have hd : idOf d ∈ s.map Prod.fst := hcov d (List.mem_cons_self _ _)
    have hdup : dupdate s (idOf d) d =
        s.map (fun p => (p.1, if p.1 = idOf d then d else p.2)) := by
      rw [dupdate_of_mem d hd]
      apply List.map_congr_left
      intro p _
      by_cases hpk : p.1 = idOf d
      · simp [hpk]
      · simp [hpk]
    have hcov' : ∀ d' ∈ rest,
        idOf d' ∈ (s.map (fun p => (p.1, if p.1 = idOf d then d else p.2))).map Prod.fst := by
      intro d' hd'
      rw [keys_map_fst_preserved s (fun p => (p.1, if p.1 = idOf d then d else p.2))
        (fun p => rfl)]
      exact hcov d' (List.mem_cons_of_mem _ hd')
    rcases ih _ hcov' with ⟨f', hmap, hprop⟩
    refine ⟨fun i v => f' i (if i = idOf d then d else v), ?_, ?_⟩
    · have : upsertAll idOf (d :: rest) s =
          upsertAll idOf rest (dupdate s (idOf d) d) := rfl
      rw [this, hdup, hmap, List.map_map]
      apply List.map_congr_left
      intro p _
      rfl
    · intro i v
      dsimp only
      rcases hprop i (if i = idOf d then d else v) with h | h
      · rw [h]
        by_cases hik : i = idOf d
        · rw [if_pos hik]
          exact Or.inr ⟨List.mem_cons_self _ _, hik.symm⟩
        · rw [if_neg hik]
          exact Or.inl rfl
      · exact Or.inr ⟨List.mem_cons_of_mem _ h.1, h.2⟩

/-- Tag counting only depends on each entry's tag status. -/
theorem countTag_map_pairs (tag : String) (s : Store) (h : Nat → Doc → Doc)
    (hpres : ∀ p ∈ s, hasTagB tag (h p.1 p.2) = hasTagB tag p.2) :
    countTag tag (s.map (fun p => (p.1, h p.1 p.2))) = countTag tag s := by
  unfold countTag
  induction s with
  | nil => rfl
  | cons p rest ih =>
    have hih := ih (fun q hq => hpres q (List.mem_cons_of_mem _ hq))
    have hp := hpres p (List.mem_cons_self _ _)
    simp only [List.map_cons, List.filter_cons]
    rw [hp]
    by_cases hb : hasTagB tag p.2 = true
    · rw [if_pos hb, if_pos hb]
      simp [hih]
    · rw [if_neg hb, if_neg hb]
      exact hih

/-! ## Run-document lemmas (for C6) -/

/-- Under the standard system-field setup, every document a run
transforms after construction carries the type tag and a timestamp at or
above the watermark, so it never matches the reconciliation query. -/
theorem transform_doc_tagged (I : IdxInst) (env : TEnv) (clock : Nat → Nat) (tag : String)
    (r : Value) (k k' k0 : Nat) (doc : Doc)
    (Hsys : standardSys I env tag)
    (HN : (I.fields.map Prod.fst).Nodup)
    (Hts : I.index_timestamp = clock k0)
    (Hmono : ∀ i j, i ≤ j → clock i ≤ clock j)
    (Hk : k0 ≤ k)
    (H : transform I env clock r k = .ok (doc, k')) :
    hasTagB tag doc = true ∧ qMatches tag I.index_timestamp doc = false := by
  have Htagne := Hsys.2.2.2.2.2.2.2
  have httag : truthy (Value.str tag) = true := by
    simp [truthy, Htagne]
  have h1 := transformGo_val I env clock r ("meta_type_s", ⟨Option.none, false⟩)
    I.fields [] k doc k' Hsys.1 HN
    (fun kk => ⟨Value.str tag, by rw [resolveField_meta_type I env clock tag r Hsys kk],
      httag⟩) H
  have h2 := transformGo_val I env clock r ("meta_index_timestamp_dt", ⟨Option.none, false⟩)
    I.fields [] k doc k' Hsys.2.1 HN
    (fun kk => ⟨Value.timestamp (clock kk),
      by rw [resolveField_meta_ts I env clock tag r Hsys kk], rfl⟩) H
  rcases h1 with ⟨j1, v1, _, hv1, _, hl1⟩
  rcases h2 with ⟨j2, v2, hj2, hv2, _, hl2⟩
  rw [resolveField_meta_type I env clock tag r Hsys j1] at hv1
  rw [resolveField_meta_ts I env clock tag r Hsys j2] at hv2
  simp only at hv1 hv2
  injection hv1 with hv1
  injection hv2 with hv2
  constructor
  · unfold hasTagB
    rw [hl1, ← hv1]
    simp
  · apply qMatches_ge_false tag I.index_timestamp doc (clock j2)
    · rw [hl2, ← hv2]
    · rw [Hts]
      exact Hmono k0 j2 (Nat.le_trans Hk hj2)

/-- Every document in any `add` call of a successful run satisfies any
property that holds of all transform outputs at ticks from the start of
the loop on (and of the pool and trace carried in). -/
theorem reindexLoop_addDocs (I : IdxInst) (env : TEnv) (clock : Nat → Nat) (P : Doc → Prop) :
    ∀ (rs : List Value) (cnt : Nat) (pool : List Doc) (tr : List Call) (k : Nat)
      (tr' : List Call) (n k' : Nat),
      reindexLoop I env clock rs cnt pool tr k = .ok (tr', n, k') →
      (∀ r' ∈ rs, ∀ kk, k ≤ kk → ∀ dd kk',
        transform I env clock r' kk = .ok (dd, kk') → P dd) →
      (∀ d ∈ pool, P d) → (∀ d ∈ addDocs tr, P d) →
      ∀ d ∈ addDocs tr', P d := by
  intro rs
  induction rs with
  | nil =>
    intro cnt pool tr k tr' n k' h _ hpool htr d hd
    rcases htag : dlookup I.meta "type" with _ | tag
    · rw [reindexLoop, htag] at h
      cases h
    · rw [reindexLoop_nil I env clock cnt pool tr k tag htag] at h
      simp only [Except.ok.injEq, Prod.mk.injEq] at h
      rw [← h.1] at hd
      by_cases hp : pool.length ≠ 0
      · rw [if_pos hp] at hd
        rw [addDocs_append, addDocs_append] at hd
        rcases List.mem_append.1 hd with hd' | hd'
        · rcases List.mem_append.1 hd' with hd'' | hd''
          · exact htr d hd''
          · exact hpool d (by simpa [addDocs] using hd'')
        · simp [addDocs] at hd'
      · rw [if_neg hp] at hd
        rw [addDocs_append] at hd
        rcases List.mem_append.1 hd with hd' | hd'
        · exact htr d hd'
        · simp [addDocs] at hd'
  | cons r rs ih =>
    intro cnt pool tr k tr' n k' h hrec hpool htr d hd
    rcases hT : transform I env clock r k with e | ⟨doc, k1⟩
    · rw [reindexLoop_cons_err I env clock r rs cnt pool tr k e hT] at h
      cases h
    · rw [reindexLoop_cons_ok I env clock r rs cnt pool tr k doc k1 hT] at h
      have hk1 : k ≤ k1 := transform_tick_ge I env clock r k doc k1 hT
      have hPdoc : P doc := hrec r (List.mem_cons_self _ _) k (Nat.le_refl k) doc k1 hT
      refine ih (cnt + 1) _ _ k1 tr' n k' h ?_ ?_ ?_ d hd
      · intro r' hr' kk hkk dd kk' hT'
        exact hrec r' (List.mem_cons_of_mem _ hr') kk (Nat.le_trans hk1 hkk) dd kk' hT'
      · intro d' hd'
        rcases List.mem_append.1 hd' with hd'' | hd''
        · by_cases hc : cnt % COMMIT_CHUNK_SIZE = 0
          · rw [if_pos hc] at hd''
            exact absurd hd'' (List.not_mem_nil d')
          · rw [if_neg hc] at hd''
            exact hpool d' hd''
        · have : d' = doc := by simpa using hd''
          rw [this]
          exact hPdoc
      · intro d' hd'
        by_cases hc : cnt % COMMIT_CHUNK_SIZE = 0
        · rw [if_pos hc, addDocs_append] at hd'
          rcases List.mem_append.1 hd' with hd'' | hd''
          · exact htr d' hd''
          · exact hpool d' (by simpa [addDocs] using hd'')
        · rw [if_neg hc] at hd'
          exact htr d' hd'

/-- Pool and trace documents of a completing run all end up in some
`add` call of the final trace. -/
theorem reindexLoop_pool_flushed (I : IdxInst) (env : TEnv) (clock : Nat → Nat) :
    ∀ (rs : List Value) (cnt : Nat) (pool : List Doc) (tr : List Call) (k : Nat)
      (tr' : List Call) (n k' : Nat),
      reindexLoop I env clock rs cnt pool tr k = .ok (tr', n, k') →
      ∀ d, (d ∈ pool ∨ d ∈ addDocs tr) → d ∈ addDocs tr' := by
  intro rs
  induction rs with
  | nil =>
    intro cnt pool tr k tr' n k' h d hd
    rcases htag : dlookup I.meta "type" with _ | tag
    · rw [reindexLoop, htag] at h
      cases h
    · rw [reindexLoop_nil I env clock cnt pool tr k tag htag] at h
      simp only [Except.ok.injEq, Prod.mk.injEq] at h
      rw [← h.1]
      by_cases hp : pool.length ≠ 0
      · rw [if_pos hp, addDocs_append, addDocs_append]
        rcases hd with hd | hd
        · exact List.mem_append.2 (Or.inl (List.mem_append.2 (Or.inr (by simpa [addDocs]))))
        · exact List.mem_append.2 (Or.inl (List.mem_append.2 (Or.inl hd)))
      · rcases hd with hd | hd
        · rcases List.length_eq_zero.1 (by omega : pool.length = 0) with rfl
          exact absurd hd (List.not_mem_nil d)
        · rw [if_neg hp, addDocs_append]
          exact List.mem_append.2 (Or.inl hd)
  | cons r rs ih =>
    intro cnt pool tr k tr' n k' h d hd
    rcases hT : transform I env clock r k with e | ⟨doc, k1⟩
    · rw [reindexLoop_cons_err I env clock r rs cnt pool tr k e hT] at h
      cases h
    · rw [reindexLoop_cons_ok I env clock r rs cnt pool tr k doc k1 hT] at h
      refine ih (cnt + 1) _ _ k1 tr' n k' h d ?_
      by_cases hc : cnt % COMMIT_CHUNK_SIZE = 0
      · rw [if_pos hc, if_pos hc]
        rcases hd with hd | hd
        · right
          rw [addDocs_append]
          exact List.mem_append.2 (Or.inr (by simpa [addDocs]))
        · right
          rw [addDocs_append]
          exact List.mem_append.2 (Or.inl hd)
      · rw [if_neg hc, if_neg hc]
        rcases hd with hd | hd
        · exact Or.inl (List.mem_append.2 (Or.inl hd))
        · exact Or.inr hd

/-- Every record of a completing run is transformed at some tick from the
loop start on, and its document lands in some `add` call of the trace. -/
theorem reindexLoop_record_doc (I : IdxInst) (env : TEnv) (clock : Nat → Nat) :
    ∀ (rs : List Value) (cnt : Nat) (pool : List Doc) (tr : List Call) (k : Nat)
      (tr' : List Call) (n k' : Nat),
      reindexLoop I env clock rs cnt pool tr k = .ok (tr', n, k') →
      ∀ r' ∈ rs, ∃ kk dd kk', k ≤ kk ∧
        transform I env clock r' kk = .ok (dd, kk') ∧ dd ∈ addDocs tr' := by
  intro rs
  induction rs with
  | nil =>
    intro cnt pool tr k tr' n k' _ r' hr'
    exact absurd hr' (List.not_mem_nil r')
  | cons r rs ih =>
    intro cnt pool tr k tr' n k' h r' hr'
    rcases hT : transform I env clock r k with e | ⟨doc, k1⟩
    · rw [reindexLoop_cons_err I env clock r rs cnt pool tr k e hT] at h
      cases h
    · rw [reindexLoop_cons_ok I env clock r rs cnt pool tr k doc k1 hT] at h
      have hk1 : k ≤ k1 := transform_tick_ge I env clock r k doc k1 hT
      rcases List.mem_cons.1 hr' with rfl | hr''
      · refine ⟨k, doc, k1, Nat.le_refl k, hT, ?_⟩
        refine reindexLoop_pool_flushed I env clock rs (cnt + 1) _ _ k1 tr' n k' h doc ?_
        exact Or.inl (List.mem_append.2 (Or.inr (List.mem_singleton.2 rfl)))
      · rcases ih (cnt + 1) _ _ k1 tr' n k' h r' hr'' with ⟨kk, dd, kk', hkk, hT', hdd⟩
        exact ⟨kk, dd, kk', Nat.le_trans hk1 hkk, hT', hdd⟩

theorem applyCalls_adds (idOf : Doc → Nat) :
    ∀ (ds : List (List Doc)) (st : Store),
      applyCalls idOf st (ds.map Call.add) = upsertAll idOf ds.flatten st := by
  intro ds
  induction ds with
  | nil => exact fun st => rfl
  | cons d rest ih =>
    intro st
    show List.foldl (applyCall idOf) st (Call.add d :: rest.map Call.add) =
      upsertAll idOf ((d :: rest).flatten) st
    rw [List.foldl_cons, List.flatten_cons, upsertAll_append]
    exact ih (applyCall idOf st (Call.add d))

theorem applyCalls_adds_commit (idOf : Doc → Nat) (ds : List (List Doc)) (st : Store) :
    applyCalls idOf st (ds.map Call.add ++ [Call.commit]) =
      upsertAll idOf ds.flatten st := by
  show List.foldl (applyCall idOf) st (ds.map Call.add ++ [Call.commit]) = _
  rw [List.foldl_append]
  rw [show List.foldl (applyCall idOf) st (ds.map Call.add) =
    applyCalls idOf st (ds.map Call.add) from rfl]
  rw [applyCalls_adds]
  rfl

/-! ## Claim C6 -/

/-- C6: calling `reindex()` twice in succession on the same indexer
instance over an unchanged record source leaves the backend's document
count for the type tag unchanged, and the second run's reconciliation
delete removes no document: every document the runs add carries the tag
and a timestamp at or above the shared watermark, each record's document
is re-added under the same id by the second run, and everything that
survived the first run's delete fails the identical predicate of the
second (`tr2.dropLast` drops exactly that final delete call). -/
theorem c6_reindex_twice_idempotent (I : IdxInst) (env : TEnv) (clock : Nat → Nat)
    (tag : String) (idOf : Doc → Nat) (k0 : Nat) (rs : List Value)
    (k1 k2 k3 : Nat) (tr1 tr2 : List Call) (n1 n2 : Nat) (st0 : Store)
    (Hsys : standardSys I env tag)
    (HN : (I.fields.map Prod.fst).Nodup)
    (Hts : I.index_timestamp = clock k0)
    (Hmono : ∀ i j, i ≤ j → clock i ≤ clock j)
    (Hk1 : k0 ≤ k1)
    (H1 : reindex I env clock rs k1 = .ok (tr1, n1, k2))
    (H2 : reindex I env clock rs k2 = .ok (tr2, n2, k3))
    (Hid : ∀ r ∈ rs, ∀ ka da ka' kb db kb',
      transform I env clock r ka = .ok (da, ka') →
      transform I env clock r kb = .ok (db, kb') → idOf da = idOf db) :
    countTag tag (applyCalls idOf (applyCalls idOf st0 tr1) tr2) =
      countTag tag (applyCalls idOf st0 tr1) ∧
    applyCalls idOf (applyCalls idOf st0 tr1) tr2 =
      applyCalls idOf (applyCalls idOf st0 tr1) tr2.dropLast := by
  have htag := Hsys.2.2.2.2.2.2.1
  rcases reindexLoop_shape I env clock rs 0 [] [] k1 tr1 n1 k2 H1 with
    ⟨tag1, ds1, htag1, htr1, _, _, hk12⟩
  rcases reindexLoop_shape I env clock rs 0 [] [] k2 tr2 n2 k3 H2 with
    ⟨tag2, ds2, htag2, htr2, _, _, _⟩
  have ht1 : some tag1 = some tag := htag1.symm.trans htag
  have ht2 : some tag2 = some tag := htag2.symm.trans htag
  injection ht1 with ht1
  injection ht2 with ht2
  rw [ht1] at htr1
  rw [ht2] at htr2
  have htr1' : tr1 = ds1.map Call.add ++
      [Call.commit, Call.deleteQ tag I.index_timestamp] := by simpa using htr1
  have htr2' : tr2 = ds2.map Call.add ++
      [Call.commit, Call.deleteQ tag I.index_timestamp] := by simpa using htr2
  have hflat1 : addDocs tr1 = ds1.flatten := by
    rw [htr1']
    exact addDocs_shape ds1 tag I.index_timestamp
  have hflat2 : addDocs tr2 = ds2.flatten := by
    rw [htr2']
    exact addDocs_shape ds2 tag I.index_timestamp
  have hk02 : k0 ≤ k2 := Nat.le_trans Hk1 hk12
  have hP1 : ∀ d ∈ ds1.flatten,
      hasTagB tag d = true ∧ qMatches tag I.index_timestamp d = false := by
    rw [← hflat1]
    refine reindexLoop_addDocs I env clock _ rs 0 [] [] k1 tr1 n1 k2 H1 ?_ ?_ ?_
    · intro r' _ kk hkk dd kk' hT'
      exact transform_doc_tagged I env clock tag r' kk kk' k0 dd Hsys HN Hts Hmono
        (Nat.le_trans Hk1 hkk) hT'
    · intro d hd
      exact absurd hd (List.not_mem_nil d)
    · intro d hd
      simp [addDocs] at hd
  have hP2 : ∀ d ∈ ds2.flatten,
      hasTagB tag d = true ∧ qMatches tag I.index_timestamp d = false := by
    rw [← hflat2]
    refine reindexLoop_addDocs I env clock _ rs 0 [] [] k2 tr2 n2 k3 H2 ?_ ?_ ?_
    · intro r' _ kk hkk dd kk' hT'
      exact transform_doc_tagged I env clock tag r' kk kk' k0 dd Hsys HN Hts Hmono
        (Nat.le_trans hk02 hkk) hT'
    · intro d hd
      exact absurd hd (List.not_mem_nil d)
    · intro d hd
      simp [addDocs] at hd
  have hQ2 : ∀ d ∈ ds2.flatten, ∃ r ∈ rs, ∃ kk kk',
      transform I env clock r kk = .ok (d, kk') := by
    rw [← hflat2]
    refine reindexLoop_addDocs I env clock _ rs 0 [] [] k2 tr2 n2 k3 H2 ?_ ?_ ?_
    · intro r' hr' kk _ dd kk' hT'
      exact ⟨r', hr', kk, kk', hT'⟩
    · intro d hd
      exact absurd hd (List.not_mem_nil d)
    · intro d hd
      simp [addDocs] at hd
  have hst1 : applyCalls idOf st0 tr1 =
      (upsertAll idOf ds1.flatten st0).filter
        (fun p => ! qMatches tag I.index_timestamp p.2) := by
    rw [htr1']
    exact applyCalls_shape idOf ds1 st0 tag I.index_timestamp
  have hsurv : ∀ p ∈ applyCalls idOf st0 tr1,
      qMatches tag I.index_timestamp p.2 = false := by
    intro p hp
    rw [hst1] at hp
    have := List.of_mem_filter hp
    simpa using this
  have hkeytag : ∀ p ∈ applyCalls idOf st0 tr1, p.1 ∈ ds1.flatten.map idOf →
      hasTagB tag p.2 = true := by
    intro p hp hkey
    rw [hst1] at hp
    have hpu := List.mem_of_mem_filter hp
    rcases upsertAll_at_key idOf ds1.flatten st0 p hpu hkey with ⟨hmem, _⟩
    exact (hP1 p.2 hmem).1
  have hkey12 : ∀ i, i ∈ ds2.flatten.map idOf → i ∈ ds1.flatten.map idOf := by
    intro i hi
    rcases List.mem_map.1 hi with ⟨d2, hd2, hd2k⟩
    rcases hQ2 d2 hd2 with ⟨r, hr, kk, kk', hT2⟩
    rcases reindexLoop_record_doc I env clock rs 0 [] [] k1 tr1 n1 k2 H1 r hr with
      ⟨ka, d1, ka', _, hT1, hd1⟩
    have hideq : idOf d1 = idOf d2 := Hid r hr ka d1 ka' kk d2 kk' hT1 hT2
    rw [← hd2k, ← hideq]
    exact List.mem_map.2 ⟨d1, hflat1 ▸ hd1, rfl⟩
  have hcov : ∀ d2 ∈ ds2.flatten, idOf d2 ∈ (applyCalls idOf st0 tr1).map Prod.fst := by
    intro d2 hd2
    have hkd2 : idOf d2 ∈ ds1.flatten.map idOf :=
      hkey12 (idOf d2) (List.mem_map.2 ⟨d2, hd2, rfl⟩)
    rcases List.mem_map.1 hkd2 with ⟨d1, hd1f, hd1k⟩
    have hkeyu : idOf d1 ∈ (upsertAll idOf ds1.flatten st0).map Prod.fst :=
      key_of_doc_in_upsertAll idOf ds1.flatten st0 d1 hd1f
    rcases List.mem_map.1 hkeyu with ⟨p, hpu, hpk⟩
    have hkmem : p.1 ∈ ds1.flatten.map idOf := by
      rw [hpk]
      exact List.mem_map.2 ⟨d1, hd1f, rfl⟩
    rcases upsertAll_at_key idOf ds1.flatten st0 p hpu hkmem with ⟨hpmem, _⟩
    have hpst1 : p ∈ applyCalls idOf st0 tr1 := by
      rw [hst1]
      refine List.mem_filter.2 ⟨hpu, ?_⟩
      rw [(hP1 p.2 hpmem).2]
      rfl
    rw [← hd1k, ← hpk]
    exact List.mem_map.2 ⟨p, hpst1, rfl⟩
  rcases upsertAll_map_form idOf ds2.flatten (applyCalls idOf st0 tr1) hcov with
    ⟨f, hmap, hprop⟩
  have hnodel : (upsertAll idOf ds2.flatten (applyCalls idOf st0 tr1)).filter
      (fun p => ! qMatches tag I.index_timestamp p.2) =
      upsertAll idOf ds2.flatten (applyCalls idOf st0 tr1) := by
    apply List.filter_eq_self.2
    intro p hp
    rw [hmap] at hp
    rcases List.mem_map.1 hp with ⟨q, hq, hqe⟩
    subst hqe
    dsimp only
    rcases hprop q.1 q.2 with hcase | hcase
    · rw [hcase, hsurv q hq]
      rfl
    · rw [(hP2 _ hcase.1).2]
      rfl
  have hst2 : applyCalls idOf (applyCalls idOf st0 tr1) tr2 =
      upsertAll idOf ds2.flatten (applyCalls idOf st0 tr1) := by
    rw [htr2', applyCalls_shape, hnodel]
  have hdrop : tr2.dropLast = ds2.map Call.add ++ [Call.commit] := by
    rw [htr2']
    rw [show ds2.map Call.add ++ [Call.commit, Call.deleteQ tag I.index_timestamp] =
      (ds2.map Call.add ++ [Call.commit]) ++ [Call.deleteQ tag I.index_timestamp] from
        by simp]
    exact List.dropLast_concat
  have hst2' : applyCalls idOf (applyCalls idOf st0 tr1) tr2.dropLast =
      upsertAll idOf ds2.flatten (applyCalls idOf st0 tr1) := by
    rw [hdrop]
    exact applyCalls_adds_commit idOf ds2 (applyCalls idOf st0 tr1)
  constructor
  · rw [hst2, hmap]
    apply countTag_map_pairs
    intro p hp
    rcases hprop p.1 p.2 with hcase | hcase
    · rw [hcase]
    · rw [(hP2 _ hcase.1).1]
      have hkds2 : p.1 ∈ ds2.flatten.map idOf := by
        rw [← hcase.2]
        exact List.mem_map.2 ⟨f p.1 p.2, hcase.1, rfl⟩
      exact (hkeytag p hp (hkey12 p.1 hkds2)).symm
  · rw [hst2, hst2']

/-- C6 witness: two successive one-record runs of the article indexer on
an initially empty backend. -/
theorem c6_reindex_twice_idempotent_witness :
    countTag "article" (applyCalls constId (applyCalls constId [] firstRunTrace)
      lateRunTrace) = countTag "article" (applyCalls constId [] firstRunTrace) ∧
    applyCalls constId (applyCalls constId [] firstRunTrace) lateRunTrace =
      applyCalls constId (applyCalls constId [] firstRunTrace) lateRunTrace.dropLast :=
  c6_reindex_twice_idempotent articleIndexer sampleEnv idClock "article" constId 0
    [blankRecord] 1 2 3 firstRunTrace lateRunTrace 1 1 []
    ⟨by decide, by decide, rfl, rfl, rfl, rfl, rfl, by decide⟩
    (by decide) rfl (fun i j h => h) (by decide) rfl rfl
    (fun r hr ka da ka' kb db kb' h1 h2 => rfl)

end Sunburnt
